import Mathlib

/-!
# Verification of the versioned file store of `prod-fc`

This file gives a shallow embedding of the core subsystem of the repository:
the version-controlled file store (`src/db/repositories.py`), its
write-through integration layer (`src/db/integration.py`) and the restore
operation (`src/utils/restore.py`), together with the parts of Python's
`difflib` that `FileRepository.save_file_version` calls
(`difflib.unified_diff`, which is driven by `difflib.SequenceMatcher`).

Modelling conventions:
* The relational store is a `DB` record holding the rows of each table as a
  list in insertion order.  Generated primary keys (`uuid4` in the source)
  are modelled by a monotone counter `nextRowId`; `datetime.now()` by the
  fixed clock reading `DB.now`.
* SQLAlchemy queries are translated clause by clause: `select ... where`
  becomes a `filter`/`find?` over the row list, `func.max` a fold,
  `group_by ... join` the corresponding filter (see `get_all_latest_files`).
* Python text is modelled as `String` at the API boundary and as `List Char`
  inside the diff machinery (`Line := List Char`), which matches Python's
  sequence-of-code-points semantics for `str`.
* Loops of the `difflib` algorithms are translated into structurally
  recursive functions.  Where the Python loop is a `while` loop, the
  recursion carries an explicit iteration bound that is, at every call site,
  at least the number of iterations the Python loop performs, so the
  functions compute the same results (the bound is never hit before the
  loop condition turns false; this is proved where it matters).
* The integration layer runs against a store that can fail: the monad `M`
  threads a `World` holding the database and a schedule of transport faults,
  one consulted at each awaited store statement.  A `txnM` models
  `get_db_session`: commit on success (one more fallible await), roll the
  database back on any exception.
-/

set_option maxHeartbeats 1000000

namespace ProdFC

/-! ## Data model (src/db/models.py) -/

/-- `SandboxState` enum from `src/db/models.py`. -/
inductive SandboxState where
  | RUNNING
  | PAUSED
  | KILLED
  | NONE
deriving DecidableEq, Repr

/-- `SessionStatus` enum from `src/db/models.py`. -/
inductive SessionStatus where
  | ACTIVE
  | PAUSED
  | ENDED
deriving DecidableEq, Repr

/-- A row of the `users` table. -/
structure UserRow where
  id : String
  email : String
  username : String
deriving DecidableEq, Repr

/-- A row of the `projects` table (fields the core reads or writes). -/
structure ProjectRow where
  id : String
  user_id : String
  name : String
  active_sandbox_id : Option String
  sandbox_state : SandboxState
deriving DecidableEq, Repr

/-- A row of the `sessions` table.  `rowId` models the generated uuid
primary key; timestamps are clock readings (`Nat`). -/
structure SessionRow where
  rowId : Nat
  project_id : String
  agno_session_id : Option String
  status : SessionStatus
  last_active : Nat
  ended_at : Option Nat
deriving DecidableEq, Repr

/-- A row of the `file_versions` table. -/
structure FileVersionRow where
  rowId : Nat
  project_id : String
  file_path : String
  content : String
  size_bytes : Nat
  version : Nat
  diff_from_previous : Option String
  created_by_tool : String
deriving DecidableEq, Repr

/-- The relational store: one list of rows per table, in insertion order,
plus the key generator and a clock reading. -/
structure DB where
  users : List UserRow
  projects : List ProjectRow
  sessions : List SessionRow
  fileVersions : List FileVersionRow
  nextRowId : Nat
  now : Nat
deriving DecidableEq, Repr

/-- The empty store. -/
def DB.empty : DB := ⟨[], [], [], [], 0, 0⟩

/-! ## Python `str.splitlines(keepends=True)`

`save_file_version` feeds `content.splitlines(keepends=True)` to
`difflib.unified_diff`.  Python splits on the full set of line boundaries
(`\n`, `\r`, `\r\n`, `\v`, `\f`, and the file/group/record separators,
NEL, LS, PS), keeping each terminator attached to its line. -/

/-- A line of text, as a list of code points. -/
abbrev Line := List Char

/-- The characters Python's `str.splitlines` treats as line boundaries. -/
def isLineBreak (c : Char) : Bool :=
  c == '\n' || c == '\r' || c == '\x0b' || c == '\x0c' ||
  c == '\x1c' || c == '\x1d' || c == '\x1e' || c == '\x85' ||
  c == '\u2028' || c == '\u2029'

/-- `str.splitlines(keepends=True)`: `acc` holds the current line so far,
reversed.  `\r\n` counts as a single boundary. -/
def splitlinesAux : List Char → List Char → List Line
  | [], acc => if acc.isEmpty then [] else [acc.reverse]
  | '\r' :: '\n' :: rest2, acc => (acc.reverse ++ ['\r', '\n']) :: splitlinesAux rest2 []
  | c :: rest, acc =>
      if isLineBreak c then (acc.reverse ++ [c]) :: splitlinesAux rest []
      else splitlinesAux rest (c :: acc)

/-- `content.splitlines(keepends=True)` on a Python `str`. -/
def splitlinesKeepends (s : String) : List Line := splitlinesAux s.data []

/-! ## Decimal rendering of naturals

Models Python's `str(n)` for the version numbers and hunk headers (standard
decimal notation, no sign, no leading zeros). -/

/-- The decimal digit character for `n < 10`. -/
def digitChar (n : Nat) : Char := Char.ofNat (48 + n)

/-- Decimal digits of `n`, most significant first.  The first argument is an
iteration bound; `natToDec` passes `n + 1`, which exceeds the number of
digits of `n`, so the bound is never hit. -/
def natToDecAux : Nat → Nat → List Char
  | 0, _ => []
  | fuel + 1, n =>
      if n < 10 then [digitChar n]
      else natToDecAux fuel (n / 10) ++ [digitChar (n % 10)]

/-- `str(n)` for a natural number. -/
def natToDec (n : Nat) : List Char := natToDecAux (n + 1) n

/-! ## `difflib.SequenceMatcher(None, a, b)`

Translated from CPython's `difflib.py`.  The sequences compared are the
keepends line lists of the two contents.  With `isjunk = None` the junk set
is empty, so the junk-extension loops of `find_longest_match` never run and
are omitted; the `autojunk` "popular element" filtering of `b2j` (active
when `len(b) >= 200`) is kept. -/

/-- Positions of `x` in `b`, ascending — the `b2j` entry before autojunk. -/
def indicesOf (b : List Line) (x : Line) : List Nat :=
  (List.range b.length).filter (fun j => b.getD j [] == x)

/-- `b2j.get(x, [])` after autojunk: elements occurring more than
`len(b) // 100 + 1` times in a `b` of at least 200 lines are dropped. -/
def b2jIdxs (b : List Line) (x : Line) : List Nat :=
  let idxs := indicesOf b x
  if 200 ≤ b.length && b.length / 100 + 1 < idxs.length then [] else idxs

/-- Inner loop of `find_longest_match`: one pass over `b2j[a[i]]`, building
the new `j2len` dictionary (modelled as a function defaulting to 0) and
updating the best match.  `continue` on `j < blo`, `break` on `j >= bhi`.
`j2len.get(j - 1, 0)` reads the previous row's dictionary; for `j = 0` the
Python key `-1` is absent, hence the explicit 0. -/
def flmInner (blo bhi i : Nat) (j2len : Nat → Nat) :
    List Nat → (Nat → Nat) → Nat × Nat × Nat → (Nat → Nat) × (Nat × Nat × Nat)
  | [], newj2len, best => (newj2len, best)
  | j :: rest, newj2len, best =>
      if j < blo then flmInner blo bhi i j2len rest newj2len best
      else if bhi ≤ j then (newj2len, best)
      else
        let k := (if j = 0 then 0 else j2len (j - 1)) + 1
        let newj2len' : Nat → Nat := fun j' => if j' = j then k else newj2len j'
        let best' := if best.2.2 < k then (i + 1 - k, j + 1 - k, k) else best
        flmInner blo bhi i j2len rest newj2len' best'

/-- Outer loop of `find_longest_match`: `for i in range(alo, ahi)`, i.e.
`ahi - alo` iterations starting at `i = alo`. -/
def flmOuter (a b : List Line) (blo bhi : Nat) :
    Nat → Nat → (Nat → Nat) → Nat × Nat × Nat → Nat × Nat × Nat
  | 0, _, _, best => best
  | count + 1, i, j2len, best =>
      let r := flmInner blo bhi i j2len (b2jIdxs b (a.getD i [])) (fun _ => 0) best
      flmOuter a b blo bhi count (i + 1) r.1 r.2

/-- First `while` loop of `find_longest_match`: extend the best match
downward over equal non-junk elements.  The iteration bound equals `besti`
at the call site; the loop condition `alo < besti` fails at `besti = 0`, so
the bound is never hit. -/
def extendDownAux (a b : List Line) (alo blo : Nat) :
    Nat → Nat → Nat → Nat → Nat × Nat × Nat
  | 0, besti, bestj, bestsize => (besti, bestj, bestsize)
  | fuel + 1, besti, bestj, bestsize =>
      if alo < besti ∧ blo < bestj ∧ a.getD (besti - 1) [] == b.getD (bestj - 1) [] then
        extendDownAux a b alo blo fuel (besti - 1) (bestj - 1) (bestsize + 1)
      else (besti, bestj, bestsize)

/-- Second `while` loop of `find_longest_match`: extend upward.  The bound
is `ahi - besti - bestsize` at the call site; the condition
`besti + bestsize < ahi` fails when it would run out. -/
def extendUpAux (a b : List Line) (ahi bhi : Nat) :
    Nat → Nat → Nat → Nat → Nat × Nat × Nat
  | 0, besti, bestj, bestsize => (besti, bestj, bestsize)
  | fuel + 1, besti, bestj, bestsize =>
      if besti + bestsize < ahi ∧ bestj + bestsize < bhi ∧
          a.getD (besti + bestsize) [] == b.getD (bestj + bestsize) [] then
        extendUpAux a b ahi bhi fuel besti bestj (bestsize + 1)
      else (besti, bestj, bestsize)

/-- `SequenceMatcher.find_longest_match(alo, ahi, blo, bhi)` with empty junk
set (the two junk-extension loops are vacuous and omitted). -/
def find_longest_match (a b : List Line) (alo ahi blo bhi : Nat) : Nat × Nat × Nat :=
  let best := flmOuter a b blo bhi (ahi - alo) alo (fun _ => 0) (alo, blo, 0)
  let e1 := extendDownAux a b alo blo best.1 best.1 best.2.1 best.2.2
  extendUpAux a b ahi bhi (ahi - (e1.1 + e1.2.2)) e1.1 e1.2.1 e1.2.2

/-- The recursive work of `get_matching_blocks`.  CPython explores the
subranges with an explicit LIFO queue and then sorts the collected blocks;
processing the two subranges in order and emitting the middle block between
them yields that sorted list directly (every block found left of the middle
block starts strictly before it, every block right of it strictly after).
The first argument bounds the recursion depth by the total size of the
range, which shrinks at every split; `get_matching_blocks` passes a bound
large enough that it is never hit. -/
def matchingBlocksFuel (a b : List Line) : Nat → Nat → Nat → Nat → Nat → List (Nat × Nat × Nat)
  | 0, _, _, _, _ => []
  | fuel + 1, alo, ahi, blo, bhi =>
      let m := find_longest_match a b alo ahi blo bhi
      if m.2.2 = 0 then []
      else
        (if alo < m.1 && blo < m.2.1 then matchingBlocksFuel a b fuel alo m.1 blo m.2.1 else []) ++
        [m] ++
        (if m.1 + m.2.2 < ahi && m.2.1 + m.2.2 < bhi then
          matchingBlocksFuel a b fuel (m.1 + m.2.2) ahi (m.2.1 + m.2.2) bhi else [])

/-- The second loop of `get_matching_blocks`: merge adjacent blocks.  The
first argument is the running `(i1, j1, k1)`, initially `(0, 0, 0)`. -/
def mergeBlocksAux : Nat × Nat × Nat → List (Nat × Nat × Nat) → List (Nat × Nat × Nat)
  | (i1, j1, k1), [] => if k1 ≠ 0 then [(i1, j1, k1)] else []
  | (i1, j1, k1), (i2, j2, k2) :: rest =>
      if i1 + k1 = i2 ∧ j1 + k1 = j2 then mergeBlocksAux (i1, j1, k1 + k2) rest
      else (if k1 ≠ 0 then [(i1, j1, k1)] else []) ++ mergeBlocksAux (i2, j2, k2) rest

/-- `SequenceMatcher.get_matching_blocks()`: sorted maximal matching blocks,
adjacent ones merged, terminated by the sentinel `(len(a), len(b), 0)`. -/
def get_matching_blocks (a b : List Line) : List (Nat × Nat × Nat) :=
  let blocks := matchingBlocksFuel a b (a.length + b.length + 1) 0 a.length 0 b.length
  mergeBlocksAux (0, 0, 0) blocks ++ [(a.length, b.length, 0)]

/-- Opcode tags of `get_opcodes`. -/
inductive DTag where
  | replace
  | delete
  | insert
  | equal
deriving DecidableEq, Repr

/-- One `(tag, i1, i2, j1, j2)` opcode. -/
structure Opcode where
  tag : DTag
  i1 : Nat
  i2 : Nat
  j1 : Nat
  j2 : Nat
deriving DecidableEq, Repr

/-- The loop of `get_opcodes`, walking the matching blocks with the running
position `(i, j)`. -/
def opcodesLoop : Nat → Nat → List (Nat × Nat × Nat) → List Opcode
  | _, _, [] => []
  | i, j, (ai, bj, size) :: rest =>
      (if i < ai ∧ j < bj then [⟨.replace, i, ai, j, bj⟩]
       else if i < ai then [⟨.delete, i, ai, j, bj⟩]
       else if j < bj then [⟨.insert, i, ai, j, bj⟩]
       else []) ++
      (if size ≠ 0 then [⟨.equal, ai, ai + size, bj, bj + size⟩] else []) ++
      opcodesLoop (ai + size) (bj + size) rest

/-- `SequenceMatcher.get_opcodes()`. -/
def get_opcodes (a b : List Line) : List Opcode := opcodesLoop 0 0 (get_matching_blocks a b)

/-- Adjustment of the first opcode in `get_grouped_opcodes`: an `equal` head
keeps only `n` trailing context lines. -/
def trimFirstOpcode (n : Nat) : List Opcode → List Opcode
  | [] => []
  | c :: rest =>
      if c.tag = .equal then
        { c with i1 := max c.i1 (c.i2 - n), j1 := max c.j1 (c.j2 - n) } :: rest
      else c :: rest

/-- Adjustment of the last opcode in `get_grouped_opcodes`: an `equal` tail
keeps only `n` leading context lines. -/
def trimLastOpcode (n : Nat) (codes : List Opcode) : List Opcode :=
  match codes.getLast? with
  | none => codes
  | some c =>
      if c.tag = .equal then
        codes.dropLast ++ [{ c with i2 := min c.i2 (c.i1 + n), j2 := min c.j2 (c.j1 + n) }]
      else codes

/-- The grouping loop of `get_grouped_opcodes`: split at `equal` opcodes
wider than `2 * n`, trimming the context on both sides of the cut; at the
end, yield the pending group unless it is a lone `equal` opcode. -/
def groupLoop (n : Nat) : List Opcode → List Opcode → List (List Opcode)
  | group, [] =>
      if group ≠ [] ∧ ¬(group.length = 1 ∧ group.head?.map Opcode.tag = some .equal)
      then [group] else []
  | group, c :: rest =>
      if c.tag = .equal ∧ 2 * n < c.i2 - c.i1 then
        (group ++ [{ c with i2 := min c.i2 (c.i1 + n), j2 := min c.j2 (c.j1 + n) }]) ::
          groupLoop n [{ c with i1 := max c.i1 (c.i2 - n), j1 := max c.j1 (c.j2 - n) }] rest
      else groupLoop n (group ++ [c]) rest

/-- `SequenceMatcher.get_grouped_opcodes(n)`, including the
`[("equal", 0, 1, 0, 1)]` placeholder for an empty opcode list. -/
def get_grouped_opcodes (a b : List Line) (n : Nat) : List (List Opcode) :=
  let codes := get_opcodes a b
  let codes := if codes.isEmpty then [⟨.equal, 0, 1, 0, 1⟩] else codes
  groupLoop n [] (trimLastOpcode n (trimFirstOpcode n codes))

/-! ## `difflib.unified_diff` -/

/-- `difflib._format_range_unified(start, stop)`. -/
def formatRangeUnified (start stop : Nat) : Line :=
  let beginning := start + 1
  let length := stop - start
  if length = 1 then natToDec beginning
  else natToDec (if length = 0 then beginning - 1 else beginning) ++ [','] ++ natToDec length

/-- `a[i1:i2]` on a line list. -/
def sliceLines (l : List Line) (i1 i2 : Nat) : List Line := (l.drop i1).take (i2 - i1)

/-- The record lines one opcode contributes to a hunk body. -/
def opcodeLines (a b : List Line) (c : Opcode) : List Line :=
  match c.tag with
  | .equal => (sliceLines a c.i1 c.i2).map (fun l => ' ' :: l)
  | .replace =>
      (sliceLines a c.i1 c.i2).map (fun l => '-' :: l) ++
      (sliceLines b c.j1 c.j2).map (fun l => '+' :: l)
  | .delete => (sliceLines a c.i1 c.i2).map (fun l => '-' :: l)
  | .insert => (sliceLines b c.j1 c.j2).map (fun l => '+' :: l)

/-- The `@@ -r1 +r2 @@` header line of one group (with `lineterm = '\n'`). -/
def hunkHeader (g : List Opcode) : Line :=
  match g.head?, g.getLast? with
  | some first, some last =>
      ['@', '@', ' ', '-'] ++ formatRangeUnified first.i1 last.i2 ++
      [' ', '+'] ++ formatRangeUnified first.j1 last.j2 ++ [' ', '@', '@', '\n']
  | _, _ => []

/-- All lines one group contributes: its header followed by its body. -/
def hunkLines (a b : List Line) (g : List Opcode) : List Line :=
  hunkHeader g :: g.flatMap (opcodeLines a b)

/-- `difflib.unified_diff(a, b, fromfile, tofile)` with default dates,
`n = 3` and `lineterm = '\n'`, as the list of yielded lines: the two file
headers precede the first group only. -/
def unified_diff (a b : List Line) (fromfile tofile : Line) : List Line :=
  ((get_grouped_opcodes a b 3).enum).flatMap (fun p =>
    (if p.1 = 0 then
      [('-' :: '-' :: '-' :: ' ' :: fromfile) ++ ['\n'],
       ('+' :: '+' :: '+' :: ' ' :: tofile) ++ ['\n']]
     else []) ++
    hunkLines a b p.2)

/-- The `fromfile`/`tofile` label `f"{file_path} (v{v})"` used by
`save_file_version`. -/
def versionLabel (file_path : String) (v : Nat) : Line :=
  file_path.data ++ (" (v".data) ++ natToDec v ++ (")".data)

/-- `''.join(difflib.unified_diff(prev.splitlines(True),
new.splitlines(True), fromfile, tofile))` — the diff text
`save_file_version` stores. -/
def unifiedDiffText (prevContent newContent : String) (file_path : String) (prevVersion : Nat) :
    String :=
  ⟨(unified_diff (splitlinesKeepends prevContent) (splitlinesKeepends newContent)
      (versionLabel file_path prevVersion) (versionLabel file_path (prevVersion + 1))).flatten⟩

/-! ## Repositories (src/db/repositories.py)

Pure translations: each method reads and writes only the store, so it is a
function of the `DB`.  `scalar_one_or_none()` on a query whose key is unique
(primary key, unique column, or the per-chain version in reachable states)
is translated as `find?`. -/

/-- `select(func.max(FileVersion.version)).where(project, path)` followed by
`result.scalar() or 0`: the maximum version of the chain, 0 when empty. -/
def latestVersion (db : DB) (project_id file_path : String) : Nat :=
  ((db.fileVersions.filter (fun r => r.project_id == project_id && r.file_path == file_path)).map
    FileVersionRow.version).foldl max 0

/-- `FileRepository.get_file_version`: exact `(project, path, version)`
lookup. -/
def get_file_version (db : DB) (project_id file_path : String) (version : Nat) :
    Option FileVersionRow :=
  db.fileVersions.find? (fun r =>
    r.project_id == project_id && r.file_path == file_path && r.version == version)

/-- `FileRepository.get_latest_file_version`: `order_by(desc(version)).limit(1)`
— the row of maximal version for the chain (the earliest such row if the
version were ever duplicated). -/
def get_latest_file_version (db : DB) (project_id file_path : String) : Option FileVersionRow :=
  (db.fileVersions.filter (fun r => r.project_id == project_id && r.file_path == file_path)).foldl
    (fun acc r =>
      match acc with
      | none => some r
      | some best => if best.version < r.version then some r else acc)
    none

/-- `FileRepository.save_file_version`: read the chain's max version (0 if
none); if a prior version exists, fetch it and compute the unified diff of
its content against the new content; insert the new row with
`version = latest + 1`. -/
def save_file_version (db : DB) (project_id file_path content created_by_tool : String) :
    FileVersionRow × DB :=
  let latest_version := latestVersion db project_id file_path
  let diff_text : Option String :=
    if 0 < latest_version then
      match get_file_version db project_id file_path latest_version with
      | some prev => some (unifiedDiffText prev.content content file_path latest_version)
      | none => none
    else none
  let new_version : FileVersionRow :=
    { rowId := db.nextRowId
      project_id := project_id
      file_path := file_path
      content := content
      size_bytes := content.utf8ByteSize
      version := latest_version + 1
      diff_from_previous := diff_text
      created_by_tool := created_by_tool }
  (new_version,
   { db with fileVersions := db.fileVersions ++ [new_version], nextRowId := db.nextRowId + 1 })

/-- `FileRepository.get_all_latest_files`: group the project's rows by path
taking the max version, and join back — i.e. keep exactly the rows whose
version equals their chain's maximum. -/
def get_all_latest_files (db : DB) (project_id : String) : List FileVersionRow :=
  db.fileVersions.filter (fun r =>
    r.project_id == project_id && r.version == latestVersion db project_id r.file_path)

/-- `UserRepository.get_or_create_user`. -/
def get_or_create_user (db : DB) (user_id email username : String) : UserRow × DB :=
  match db.users.find? (fun r => r.id == user_id) with
  | some user => (user, db)
  | none =>
      let user : UserRow := ⟨user_id, email, username⟩
      (user, { db with users := db.users ++ [user] })

/-- `ProjectRepository.get_or_create_project`: lookup by primary key
`project_id`; insert with the given owner and name when absent (sandbox
fields at their column defaults). -/
def get_or_create_project (db : DB) (user_id project_id project_name : String) :
    ProjectRow × DB :=
  match db.projects.find? (fun r => r.id == project_id) with
  | some project => (project, db)
  | none =>
      let project : ProjectRow :=
        { id := project_id
          user_id := user_id
          name := project_name
          active_sandbox_id := none
          sandbox_state := SandboxState.NONE }
      (project, { db with projects := db.projects ++ [project] })

/-- `ProjectRepository.update_sandbox_state`: load the project by id; if
present, overwrite `active_sandbox_id` and `sandbox_state` together; if
absent, do nothing. -/
def update_sandbox_state (db : DB) (project_id : String) (sandbox_id : Option String)
    (state : SandboxState) : DB :=
  match db.projects.find? (fun r => r.id == project_id) with
  | none => db
  | some _ =>
      { db with
        projects := db.projects.map (fun r =>
          if r.id == project_id then
            { r with active_sandbox_id := sandbox_id, sandbox_state := state }
          else r) }

/-! ## Restore (src/utils/restore.py)

`restore_project_files` reads the latest version of every path and replays
each through the caller-supplied sandbox writer; a writer that raises for a
file is modelled as the writer returning `false` for it.  The returned
Python dict (insertion-ordered, keys distinct because the latest rows have
distinct paths) is modelled as the association list in insertion order. -/

/-- `restore_project_files(session, sandbox, project_id)`: replay every
latest file through `sandbox.files.write`; on a per-file failure skip that
file; return `{path: version}` of the files written. -/
def restore_project_files (write : String → String → Bool) (db : DB) (project_id : String) :
    List (String × Nat) :=
  (get_all_latest_files db project_id).foldl
    (fun restored fv =>
      if write fv.file_path fv.content then restored ++ [(fv.file_path, fv.version)]
      else restored)
    []

/-! ## Integration layer (src/db/integration.py)

These functions wrap their store work in `try/except`, so the embedding
makes failure explicit: `M` threads a `World` holding the database and a
fault schedule, one entry consumed per awaited store statement (`execute`,
`flush`, `commit`).  A repository call made from this layer is one awaited
statement: it either raises (fault) or performs its pure semantics. -/

/-- The one kind of failure the layer distinguishes: the backing store
raised on an awaited statement. -/
inductive DbError where
  | transport
deriving DecidableEq, Repr

/-- State threaded through the integration layer: the store plus the
schedule of which upcoming awaited statements fail (`[]` = none fail). -/
structure World where
  db : DB
  faults : List Bool
deriving DecidableEq, Repr

/-- Computations of the integration layer: state plus Python exceptions. -/
def M (α : Type) : Type := World → Except DbError α × World

instance : Monad M where
  pure a := fun w => (Except.ok a, w)
  bind x f := fun w =>
    match x w with
    | (Except.ok a, w') => f a w'
    | (Except.error e, w') => (Except.error e, w')

/-- One awaited store statement: consume the next fault-schedule entry; on a
scheduled fault raise, otherwise perform the statement's semantics `f`. -/
def fallible {α : Type} (f : DB → α × DB) : M α := fun w =>
  match w.faults with
  | [] =>
      let r := f w.db
      (Except.ok r.1, { w with db := r.2 })
  | b :: rest =>
      if b then (Except.error DbError.transport, { w with faults := rest })
      else
        let r := f w.db
        (Except.ok r.1, { db := r.2, faults := rest })

/-- Python `try: x except Exception: h`. -/
def tryCatchM {α : Type} (x : M α) (h : DbError → M α) : M α := fun w =>
  match x w with
  | (Except.ok a, w') => (Except.ok a, w')
  | (Except.error e, w') => h e w'

/-- `async with get_db_session() as session:` — run the body; on success
commit (one more awaited statement, which can itself fail); on any
exception roll the database back to the state at entry and re-raise. -/
def txnM {α : Type} (body : M α) : M α := fun w =>
  match body w with
  | (Except.ok a, w') =>
      match w'.faults with
      | [] => (Except.ok a, w')
      | b :: rest =>
          if b then (Except.error DbError.transport, { db := w.db, faults := rest })
          else (Except.ok a, { w' with faults := rest })
  | (Except.error e, w') => (Except.error e, { w' with db := w.db })

/-- A `DatabaseFileTracker` instance: its constructor arguments and the
`_initialized` flag. -/
structure Tracker where
  user_id : String
  project_id : String
  initialized : Bool
deriving DecidableEq, Repr

/-- `DatabaseFileTracker(user_id, project_id)`. -/
def Tracker.mk0 (user_id project_id : String) : Tracker := ⟨user_id, project_id, false⟩

/-- `DatabaseFileTracker.ensure_project_exists`: if already initialized do
nothing; otherwise, inside one transaction, look the user up and create it
with synthesized defaults if absent, then `get_or_create_project`; mark the
tracker initialized on success.  Any exception is caught and swallowed
(the tracker then stays uninitialized).  Returns the updated tracker. -/
def ensure_project_exists (t : Tracker) : M Tracker :=
  if t.initialized then pure t
  else
    tryCatchM
      (do
        txnM (do
          let u ← fallible (fun db => (db.users.find? (fun r => r.id == t.user_id), db))
          (match u with
           | none =>
              fallible (fun db =>
                ((), { db with users :=
                        db.users ++ [⟨t.user_id, t.user_id ++ "@system.local", t.user_id⟩] }))
           | some _ => pure ())
          let _ ← fallible (fun db =>
            get_or_create_project db t.user_id t.project_id ("Project " ++ t.project_id))
          pure ())
        pure { t with initialized := true })
      (fun _ => pure t)

/-- `DatabaseFileTracker.track_file_write`: ensure user/project exist, then
save the new file version in its own transaction; `True` on success.  Any
exception from the save is caught and turned into `False`.  (In the source
the `ensure_project_exists` call sits inside the same `try`, but it
swallows all its own exceptions — `ensure_no_error` below — and mutates
`self._initialized` in place, so running it first is equivalent.) -/
def track_file_write (t : Tracker) (file_path content tool_name : String) : M (Bool × Tracker) := do
  let t1 ← ensure_project_exists t
  tryCatchM
    (do
      txnM (do
        let _ ← fallible (fun db =>
          save_file_version db t1.project_id file_path content tool_name)
        pure ())
      pure (true, t1))
    (fun _ => pure (false, t1))

/-- `get_or_create_session(project_id, agno_session_id)`: when a truthy
external id is given (Python truthiness: neither `None` nor `""`), look the
session up by it; on a hit touch `last_active` and return that row's id —
note the project filter is absent from the query.  Otherwise insert a new
ACTIVE session and return its id.  Any exception is caught and turned into
`None`. -/
def get_or_create_session (project_id : String) (agno_session_id : Option String) :
    M (Option Nat) :=
  tryCatchM
    (txnM (do
      let hit ←
        (match agno_session_id with
         | some s =>
             if s.isEmpty then pure none
             else fallible (fun db =>
               (db.sessions.find? (fun r => r.agno_session_id == some s), db))
         | none => pure (none : Option SessionRow))
      match hit with
      | some sess => do
          let _ ← fallible (fun db =>
            ((), { db with sessions := db.sessions.map (fun r =>
                    if r.rowId == sess.rowId then { r with last_active := db.now } else r) }))
          pure (some sess.rowId)
      | none => do
          let nid ← fallible (fun db =>
            (db.nextRowId,
             { db with
               sessions := db.sessions ++
                 [⟨db.nextRowId, project_id, agno_session_id, SessionStatus.ACTIVE, db.now, none⟩],
               nextRowId := db.nextRowId + 1 }))
          pure (some nid)))
    (fun _ => pure none)

/-- `end_session(agno_session_id)`: look the session up by external id; if
found mark it ENDED and stamp `ended_at`; silently do nothing otherwise.
Any exception is caught and swallowed. -/
def end_session (agno_session_id : String) : M Unit :=
  tryCatchM
    (txnM (do
      let hit ← fallible (fun db =>
        (db.sessions.find? (fun r => r.agno_session_id == some agno_session_id), db))
      match hit with
      | some sess =>
          fallible (fun db =>
            ((), { db with sessions := db.sessions.map (fun r =>
                    if r.rowId == sess.rowId then
                      { r with status := SessionStatus.ENDED, ended_at := some db.now }
                    else r) }))
      | none => pure ()))
    (fun _ => pure ())

/-! ## Applying a unified diff

Modelled from the spec: §8 requires that "`diff_from_previous` of version
`k>1` applied to version `k-1`'s content reproduces version `k`'s content
exactly (round-trip property)", and §11 fixes the format only up to "any
line-based unified-diff algorithm".  The repository stores diffs but has no
applier, so the standard line-based application of a unified diff is
modelled here: split the patch into newline-terminated lines, skip the
`---`/`+++` file headers, parse each `@@ -s,l +t,m @@` hunk header, and
replay the hunks against the source, checking every context and deletion
record against the source lines.  `none` means the patch does not apply. -/

/-- Split on `'\n'` only, keeping the terminator (how a line-based patch
tool reads both the patch and the file being patched). -/
def splitNLAux : List Char → List Char → List Line
  | [], acc => if acc.isEmpty then [] else [acc.reverse]
  | c :: rest, acc =>
      if c == '\n' then (acc.reverse ++ ['\n']) :: splitNLAux rest []
      else splitNLAux rest (c :: acc)

/-- All `'\n'`-terminated lines of a text, the last possibly unterminated. -/
def splitNL (cs : List Char) : List Line := splitNLAux cs []

/-- Digit-string parser for hunk header numbers. -/
def parseNatChars (l : List Char) : Option Nat :=
  if l.isEmpty || !(l.all Char.isDigit) then none
  else some (l.foldl (fun acc c => acc * 10 + (c.toNat - 48)) 0)

/-- Split a character list at the first occurrence of `sep`: the part
before it, and the rest beginning with `sep` (or `[]` if absent). -/
def breakAt (sep : Char) : List Char → List Char × List Char
  | [] => ([], [])
  | c :: rest =>
      if c == sep then ([], c :: rest)
      else
        let r := breakAt sep rest
        (c :: r.1, r.2)

/-- Parse `s,l` (or bare `s`, meaning length 1) from a hunk header. -/
def parseRange (cs : List Char) : Option (Nat × Nat) :=
  match breakAt ',' cs with
  | (s, []) => (parseNatChars s).map (fun m => (m, 1))
  | (s, _ :: l) => do pure (← parseNatChars s, ← parseNatChars l)

/-- Parse a `@@ -r1 +r2 @@` header line into `(s, l, t, m)`. -/
def parseHunkHeader (l : Line) : Option (Nat × Nat × Nat × Nat) :=
  match l with
  | '@' :: '@' :: ' ' :: '-' :: rest =>
      let b1 := breakAt ' ' rest
      match b1.2 with
      | ' ' :: '+' :: rest2 =>
          let b2 := breakAt ' ' rest2
          if b2.2 == [' ', '@', '@', '\n'] then do
            let sr ← parseRange b1.1
            let tr ← parseRange b2.1
            pure (sr.1, sr.2, tr.1, tr.2)
          else none
      | _ => none
  | _ => none

/-- One parsed hunk. -/
structure Hunk where
  srcStart : Nat
  srcLen : Nat
  dstStart : Nat
  dstLen : Nat
  body : List Line
deriving DecidableEq, Repr

/-- Take a hunk's body off the patch: exactly `s` source-side records
(`' '` and `'-'`) and `d` destination-side records (`' '` and `'+'`).  The
first argument bounds the recursion (`s + d` at the call site). -/
def consumeBody : Nat → Nat → Nat → List Line → Option (List Line × List Line)
  | _, 0, 0, lines => some ([], lines)
  | 0, _, _, _ => none
  | _ + 1, _, _, [] => none
  | fuel + 1, s, d, l :: ls =>
      match l with
      | ' ' :: _ =>
          if s ≠ 0 ∧ d ≠ 0 then
            (consumeBody fuel (s - 1) (d - 1) ls).map (fun r => (l :: r.1, r.2))
          else none
      | '-' :: _ =>
          if s ≠ 0 then (consumeBody fuel (s - 1) d ls).map (fun r => (l :: r.1, r.2))
          else none
      | '+' :: _ =>
          if d ≠ 0 then (consumeBody fuel s (d - 1) ls).map (fun r => (l :: r.1, r.2))
          else none
      | _ => none

/-- Parse the sequence of hunks.  The first argument bounds the recursion
(the number of patch lines at the call site; each hunk consumes at least
its header line). -/
def parseHunksFuel : Nat → List Line → Option (List Hunk)
  | _, [] => some []
  | 0, _ :: _ => none
  | fuel + 1, l :: rest => do
      let h ← parseHunkHeader l
      let br ← consumeBody (h.2.1 + h.2.2.2) h.2.1 h.2.2.2 rest
      let hs ← parseHunksFuel fuel br.2
      pure (⟨h.1, h.2.1, h.2.2.1, h.2.2.2, br.1⟩ :: hs)

/-- Replay one hunk body: context records must match the source and are
copied, deletion records must match and are dropped, insertion records are
emitted.  Returns the output lines and the remaining source. -/
def applyBody : List Line → List Line → Option (List Line × List Line)
  | [], src => some ([], src)
  | r0 :: body, src =>
      match r0 with
      | ' ' :: content =>
          match src with
          | s0 :: srest =>
              if s0 == content then (applyBody body srest).map (fun r => (content :: r.1, r.2))
              else none
          | [] => none
      | '-' :: content =>
          match src with
          | s0 :: srest => if s0 == content then applyBody body srest else none
          | [] => none
      | '+' :: content => (applyBody body src).map (fun r => (content :: r.1, r.2))
      | _ => none

/-- Replay the hunks in order against the source lines, copying the
untouched stretches between them.  A `-s,0` range addresses the point after
source line `s`; a `-s,l` range with `l > 0` starts at source line `s`
(1-based). -/
def applyHunks (srcLines : List Line) : Nat → List Hunk → Option (List Line)
  | pos, [] => some (srcLines.drop pos)
  | pos, h :: hs =>
      let p := if h.srcLen = 0 then h.srcStart else h.srcStart - 1
      if pos ≤ p ∧ p ≤ srcLines.length then
        match applyBody h.body (srcLines.drop p) with
        | some r =>
            (applyHunks srcLines (p + h.srcLen) hs).map
              (fun tailOut => sliceLines srcLines pos p ++ r.1 ++ tailOut)
        | none => none
      else none

/-- Standard application of a unified diff to a source text (modelled from
the spec, see the section comment). -/
def applyUnified (diff : String) (src : String) : Option String := do
  let dlines := splitNL diff.data
  let body :=
    match dlines with
    | l1 :: l2 :: rest =>
        if ("--- ".data).isPrefixOf l1 && ("+++ ".data).isPrefixOf l2 then rest else dlines
    | _ => dlines
  let hunks ← parseHunksFuel body.length body
  let out ← applyHunks (splitNL src.data) 0 hunks
  pure ⟨out.flatten⟩

/-! ## Derived notions used by the statements -/

/-- The version chain of `(project_id, file_path)`: its rows in insertion
order. -/
def chainRows (db : DB) (project_id file_path : String) : List FileVersionRow :=
  db.fileVersions.filter (fun r => r.project_id == project_id && r.file_path == file_path)

/-- `N` sequential `save_file_version` calls on one `(project, path)`, each
given a `(content, tool)` pair. -/
def appendAll (db : DB) (project_id file_path : String) (writes : List (String × String)) : DB :=
  writes.foldl (fun d wc => (save_file_version d project_id file_path wc.1 wc.2).2) db

/-- No two distinct stored rows of one chain share a version number (the
invariant sequential operation maintains; rows are distinguished by their
generated primary key `rowId`). -/
def VersionsUnique (db : DB) : Prop :=
  ∀ r1 ∈ db.fileVersions, ∀ r2 ∈ db.fileVersions,
    r1.project_id = r2.project_id → r1.file_path = r2.file_path →
    r1.version = r2.version → r1 = r2

instance (db : DB) : Decidable (VersionsUnique db) :=
  decidable_of_iff (∀ r1 ∈ db.fileVersions, ∀ r2 ∈ db.fileVersions,
    r1.project_id = r2.project_id → r1.file_path = r2.file_path →
    r1.version = r2.version → r1 = r2) Iff.rfl

/-- An `M` computation that returns normally on every state and fault
schedule — no exception ever reaches its caller. -/
def NeverFails {α : Type} (x : M α) : Prop :=
  ∀ w, ∃ a w', x w = (Except.ok a, w')

/-! ### Predicates for the diff round-trip analysis -/

/-- Tame text: every line-break character is a plain `'\n'` and the text is
empty or ends with `'\n'`.  On such text `splitlines(keepends=True)` agrees
with plain `'\n'` splitting and every line is `'\n'`-terminated. -/
def TameChars (cs : List Char) : Prop :=
  (∀ c ∈ cs, isLineBreak c = true → c = '\n') ∧ (cs ≠ [] → cs.getLast? = some '\n')

/-- `Tame` on a Python string. -/
def Tame (s : String) : Prop := TameChars s.data

/-- A line that is nonempty, ends with `'\n'`, and contains no other
`'\n'`. -/
def NLLine (l : Line) : Prop :=
  l ≠ [] ∧ l.getLast? = some '\n' ∧ ∀ c ∈ l.dropLast, c ≠ '\n'

/-- `a[i+t] = b[j+t]` for all `t < k`: a match of length `k` at `(i, j)`. -/
def MatchAt (a b : List Line) (i j k : Nat) : Prop :=
  ∀ t, t < k → a.getD (i + t) [] = b.getD (j + t) []

/-- Validity of a `find_longest_match` candidate within
`[alo, ihi) × [blo, bhi)`. -/
def BestOK (a b : List Line) (alo ihi blo bhi : Nat) (best : Nat × Nat × Nat) : Prop :=
  alo ≤ best.1 ∧ blo ≤ best.2.1 ∧ best.1 + best.2.2 ≤ ihi ∧ best.2.1 + best.2.2 ≤ bhi ∧
  MatchAt a b best.1 best.2.1 best.2.2

/-- Validity of a `j2len` dictionary whose entries describe matches ending
strictly below row `r`: `f j = k ≠ 0` means `a[r-k .. r-1] = b[j+1-k .. j]`
with the match contained in `[alo, r) × [blo, bhi)`. -/
def J2LenOK (a b : List Line) (alo blo bhi r : Nat) (f : Nat → Nat) : Prop :=
  ∀ j, f j ≠ 0 → blo ≤ j ∧ j < bhi ∧ f j ≤ j + 1 - blo ∧ f j ≤ r - alo ∧
    MatchAt a b (r - f j) (j + 1 - f j) (f j)

/-- The matching blocks are genuine matches in increasing, non-overlapping
positions starting at or after `(i, j)`. -/
def BlocksChain (a b : List Line) : Nat → Nat → List (Nat × Nat × Nat) → Prop
  | _, _, [] => True
  | i, j, blk :: rest =>
      i ≤ blk.1 ∧ j ≤ blk.2.1 ∧ MatchAt a b blk.1 blk.2.1 blk.2.2 ∧
      BlocksChain a b (blk.1 + blk.2.2) (blk.2.1 + blk.2.2) rest

/-- Every block ends within `ahi × bhi`. -/
def BlocksLE (ahi bhi : Nat) (blocks : List (Nat × Nat × Nat)) : Prop :=
  ∀ blk ∈ blocks, blk.1 + blk.2.2 ≤ ahi ∧ blk.2.1 + blk.2.2 ≤ bhi

/-- Per-opcode validity: in-bounds ranges, and per tag the range shapes of
`get_opcodes`, with an `equal` opcode naming genuinely equal slices. -/
def OpOK (a b : List Line) (c : Opcode) : Prop :=
  c.i1 ≤ c.i2 ∧ c.j1 ≤ c.j2 ∧ c.i2 ≤ a.length ∧ c.j2 ≤ b.length ∧
  match c.tag with
  | .equal => c.i2 - c.i1 = c.j2 - c.j1 ∧ c.i1 < c.i2 ∧
      sliceLines a c.i1 c.i2 = sliceLines b c.j1 c.j2
  | .replace => c.i1 < c.i2 ∧ c.j1 < c.j2
  | .delete => c.i1 < c.i2 ∧ c.j1 = c.j2
  | .insert => c.i1 = c.i2 ∧ c.j1 < c.j2

/-- A contiguous run of valid opcodes from `(i, j)` to `(ea, eb)`. -/
def OpsSeg (a b : List Line) : Nat → Nat → Nat → Nat → List Opcode → Prop
  | i, j, ea, eb, [] => i = ea ∧ j = eb
  | i, j, ea, eb, c :: rest => c.i1 = i ∧ c.j1 = j ∧ OpOK a b c ∧ OpsSeg a b c.i2 c.j2 ea eb rest

/-- The grouped opcodes, seen from position `(i, j)`: each group is a
nonempty contiguous run, the stretches between `(i, j)`, the groups, and
the end of both sequences are equal stretches of `a` and `b`. -/
def GroupsSpec (a b : List Line) : Nat → Nat → List (List Opcode) → Prop
  | i, j, [] => a.drop i = b.drop j ∧ i ≤ a.length ∧ j ≤ b.length
  | i, j, g :: gs => ∃ sa sb ea eb,
      i ≤ sa ∧ j ≤ sb ∧ sa - i = sb - j ∧ sa ≤ a.length ∧ sb ≤ b.length ∧
      sliceLines a i sa = sliceLines b j sb ∧
      g ≠ [] ∧ OpsSeg a b sa sb ea eb g ∧
      GroupsSpec a b ea eb gs

/-- A hunk body whose record lines carry exactly `s` source-side and `d`
destination-side records, every line tagged `' '`, `'-'` or `'+'`. -/
def BodyRun : List Line → Nat → Nat → Prop
  | [], s, d => s = 0 ∧ d = 0
  | l :: ls, s, d =>
      (∃ c s2 d2, l = ' ' :: c ∧ s = s2 + 1 ∧ d = d2 + 1 ∧ BodyRun ls s2 d2) ∨
      (∃ c s2, l = '-' :: c ∧ s = s2 + 1 ∧ BodyRun ls s2 d) ∨
      (∃ c d2, l = '+' :: c ∧ d = d2 + 1 ∧ BodyRun ls s d2)

end ProdFC

namespace ProdFC

/-! ## Helper lemmas -/

theorem foldl_max_mem (l : List Nat) (a : Nat) : l.foldl max a = a ∨ l.foldl max a ∈ l := by
  induction l generalizing a with
  | nil => exact Or.inl rfl
  | cons x xs ih =>
      simp only [List.foldl_cons]
      rcases ih (max a x) with h | h
      · rcases max_choice a x with h' | h' <;> rw [h, h']
        · exact Or.inl rfl
        · exact Or.inr (List.mem_cons_self _ _)
      · exact Or.inr (List.mem_cons_of_mem _ h)

theorem init_le_foldl_max (l : List Nat) (a : Nat) : a ≤ l.foldl max a := by
  induction l generalizing a with
  | nil => exact Nat.le_refl a
  | cons y ys ih =>
      simp only [List.foldl_cons]
      exact le_trans (Nat.le_max_left a y) (ih (max a y))

theorem le_foldl_max (l : List Nat) : ∀ (a x : Nat), x ∈ l → x ≤ l.foldl max a := by
  induction l with
  | nil => intro a x hx; simp at hx
  | cons y ys ih =>
      intro a x hx
      simp only [List.foldl_cons]
      rcases List.mem_cons.mp hx with h | h
      · subst h
        exact le_trans (Nat.le_max_right a x) (init_le_foldl_max ys (max a x))
      · exact ih (max a y) x h

theorem foldl_max_range' (n : Nat) : (List.range' 1 n).foldl max 0 = n := by
  induction n with
  | zero => rfl
  | succ k ih =>
      rw [List.range'_concat, List.foldl_append, ih]
      simp [Nat.max_eq_right]
      omega

/-- The fold `get_latest_file_version` performs, on a chain whose versions
are exactly `1..n` in order, returns the last row. -/
theorem pickLatest_of_range' (l : List FileVersionRow) (n : Nat)
    (h : l.map FileVersionRow.version = List.range' 1 n) :
    l.foldl (fun acc r =>
      match acc with
      | none => some r
      | some best => if best.version < r.version then some r else acc) none = l.getLast? := by
  induction l using List.reverseRecOn generalizing n with
  | nil => rfl
  | append_singleton rs r ih =>
      rw [List.map_append] at h
      have hn : n = rs.length + 1 := by
        have := congrArg List.length h
        simpa using this.symm
      subst hn
      rw [List.range'_concat] at h
      have hlen : (rs.map FileVersionRow.version).length = rs.length := by simp
      have hsplit := List.append_inj h (by simp)
      have hrs : rs.map FileVersionRow.version = List.range' 1 rs.length := hsplit.1
      have hr : r.version = 1 + 1 * rs.length := by
        have := hsplit.2
        simpa using this
      rw [List.foldl_append, ih rs.length hrs]
      cases hlast : rs.getLast? with
      | none =>
          have : rs = [] := by
            cases rs with
            | nil => rfl
            | cons x xs => simp [List.getLast?_concat] at hlast
          subst this
          simp
      | some best =>
          have hbm : best ∈ rs := by
            rcases List.getLast?_eq_some_iff.mp hlast with ⟨l', hl'⟩
            subst hl'; simp
          have hmem : best.version ∈ rs.map FileVersionRow.version :=
            List.mem_map_of_mem _ hbm
          rw [hrs] at hmem
          have : best.version < r.version := by
            rw [hr]
            have := List.mem_range'.mp hmem
            omega
          simp only [List.foldl_cons, List.foldl_nil, this, if_pos]
          rw [List.getLast?_concat]

theorem chainRows_save (db : DB) (pid path c tool : String) :
    chainRows (save_file_version db pid path c tool).2 pid path =
      chainRows db pid path ++ [(save_file_version db pid path c tool).1] := by
  simp [chainRows, save_file_version, List.filter_append]

theorem save_version_eq (db : DB) (pid path c tool : String) :
    (save_file_version db pid path c tool).1.version = latestVersion db pid path + 1 := rfl

theorem latestVersion_eq_fold (db : DB) (pid path : String) :
    latestVersion db pid path =
      ((chainRows db pid path).map FileVersionRow.version).foldl max 0 := rfl

theorem get_latest_eq_fold (db : DB) (pid path : String) :
    get_latest_file_version db pid path =
      (chainRows db pid path).foldl (fun acc r =>
        match acc with
        | none => some r
        | some best => if best.version < r.version then some r else acc) none := rfl

/-- One append extends a `1..n` chain to a `1..n+1` chain. -/
theorem chain_versions_step (db : DB) (pid path c tool : String) (n : Nat)
    (h : (chainRows db pid path).map FileVersionRow.version = List.range' 1 n) :
    (chainRows (save_file_version db pid path c tool).2 pid path).map FileVersionRow.version =
      List.range' 1 (n + 1) := by
  rw [chainRows_save, List.map_append, h]
  simp only [List.map_cons, List.map_nil]
  rw [save_version_eq, latestVersion_eq_fold, h, foldl_max_range', List.range'_concat]
  simp [Nat.add_comm]

theorem chain_versions_appendAll (db : DB) (pid path : String) (ws : List (String × String))
    (n : Nat) (h : (chainRows db pid path).map FileVersionRow.version = List.range' 1 n) :
    (chainRows (appendAll db pid path ws) pid path).map FileVersionRow.version =
      List.range' 1 (n + ws.length) := by
  induction ws generalizing db n with
  | nil => simp only [appendAll, List.foldl_nil, List.length_nil, Nat.add_zero]; exact h
  | cons wc rest ih =>
      have hstep := chain_versions_step db pid path wc.1 wc.2 n h
      have := ih (save_file_version db pid path wc.1 wc.2).2 (n + 1) hstep
      simpa [appendAll, List.foldl_cons, Nat.add_assoc, Nat.add_comm 1 rest.length] using this

theorem foldl_max_zero_mem (l : List Nat) (h : l ≠ []) : l.foldl max 0 ∈ l := by
  rcases foldl_max_mem l 0 with h0 | h0
  · cases l with
    | nil => exact absurd rfl h
    | cons x xs =>
        have hx : x ≤ (x :: xs).foldl max 0 :=
          le_foldl_max (x :: xs) 0 x (List.mem_cons_self x xs)
        rw [h0] at hx
        rw [h0, ← Nat.le_zero.mp hx]
        exact List.mem_cons_self x xs
  · exact h0

theorem restore_foldl_filterMap (write : String → String → Bool) (l : List FileVersionRow)
    (acc : List (String × Nat)) :
    l.foldl (fun restored fv =>
      if write fv.file_path fv.content then restored ++ [(fv.file_path, fv.version)]
      else restored) acc =
    acc ++ l.filterMap (fun fv =>
      if write fv.file_path fv.content then some (fv.file_path, fv.version) else none) := by
  induction l generalizing acc with
  | nil => simp
  | cons fv rest ih =>
      simp only [List.foldl_cons, List.filterMap_cons]
      cases hw : write fv.file_path fv.content with
      | false => simp [hw, ih]
      | true => simp [hw, ih]

/-! ## The claims -/

/-- C1: for every sequence of `N` sequential `save_file_version` calls on
one `(projectId, filePath)` starting from a state with no rows for that
chain, the stored versions of the chain are exactly `1..N` (each row gets
the prior maximum plus one, starting at 1), and `get_latest_file_version`
afterwards returns the last, version-`N`, row. -/
theorem appendVersion_chain_versions (db : DB) (pid path : String)
    (ws : List (String × String)) (h : chainRows db pid path = []) :
    ((chainRows (appendAll db pid path ws) pid path).map FileVersionRow.version =
      List.range' 1 ws.length) ∧
    get_latest_file_version (appendAll db pid path ws) pid path =
      (chainRows (appendAll db pid path ws) pid path).getLast? ∧
    (ws ≠ [] → ∃ r, get_latest_file_version (appendAll db pid path ws) pid path = some r ∧
      r.version = ws.length) := by
  have h0 : (chainRows db pid path).map FileVersionRow.version = List.range' 1 0 := by
    rw [h]; rfl
  have hv := chain_versions_appendAll db pid path ws 0 h0
  rw [Nat.zero_add] at hv
  refine ⟨hv, ?_, ?_⟩
  · rw [get_latest_eq_fold]
    exact pickLatest_of_range' _ _ hv
  · intro hne
    rw [get_latest_eq_fold, pickLatest_of_range' _ _ hv]
    have hlm : ((chainRows (appendAll db pid path ws) pid path).getLast?).map
        FileVersionRow.version = some ws.length := by
      rw [← List.getLast?_map, hv]
      cases ws with
      | nil => exact absurd rfl hne
      | cons w rest =>
          rw [List.length_cons, List.range'_concat, List.getLast?_concat]
          simp [Nat.add_comm]
    cases hgl : (chainRows (appendAll db pid path ws) pid path).getLast? with
    | none => rw [hgl] at hlm; simp at hlm
    | some r =>
        rw [hgl] at hlm
        simp only [Option.map_some', Option.some.injEq] at hlm
        exact ⟨r, rfl, hlm⟩

/-- C1 witness: two appends on a fresh store give versions `[1, 2]` and a
latest row of version 2. -/
theorem appendVersion_chain_versions_witness :
    chainRows DB.empty "p" "f" = [] ∧
    (((chainRows (appendAll DB.empty "p" "f" [("a\n", "w"), ("b\n", "w")]) "p" "f").map
        FileVersionRow.version = List.range' 1 2) ∧
      get_latest_file_version (appendAll DB.empty "p" "f" [("a\n", "w"), ("b\n", "w")]) "p" "f" =
        (chainRows (appendAll DB.empty "p" "f" [("a\n", "w"), ("b\n", "w")]) "p" "f").getLast? ∧
      ([("a\n", "w"), ("b\n", "w")] ≠ ([] : List (String × String)) →
        ∃ r, get_latest_file_version (appendAll DB.empty "p" "f" [("a\n", "w"), ("b\n", "w")])
            "p" "f" = some r ∧ r.version = 2)) :=
  ⟨rfl, appendVersion_chain_versions DB.empty "p" "f" [("a\n", "w"), ("b\n", "w")] rfl⟩

/-- C7: `save_file_version` performs no content-equality de-duplication:
even when the new content is byte-identical to the latest stored version's
content, a new row is appended with `version` = prior max + 1. -/
theorem save_no_dedup (db : DB) (pid path tool : String) (prev : FileVersionRow)
    (_h : get_latest_file_version db pid path = some prev) :
    (save_file_version db pid path prev.content tool).2.fileVersions =
      db.fileVersions ++ [(save_file_version db pid path prev.content tool).1] ∧
    (save_file_version db pid path prev.content tool).1.version =
      latestVersion db pid path + 1 ∧
    (save_file_version db pid path prev.content tool).1.content = prev.content :=
  ⟨rfl, rfl, rfl⟩

/-- C7 witness: re-saving the identical content `"x"` still appends a second
row, at version 2. -/
theorem save_no_dedup_witness :
    get_latest_file_version (save_file_version DB.empty "p" "f" "x" "t").2 "p" "f" =
      some ((save_file_version DB.empty "p" "f" "x" "t").1) ∧
    ((save_file_version (save_file_version DB.empty "p" "f" "x" "t").2 "p" "f"
        ((save_file_version DB.empty "p" "f" "x" "t").1).content "t").1).version =
      latestVersion (save_file_version DB.empty "p" "f" "x" "t").2 "p" "f" + 1 ∧
    latestVersion (save_file_version DB.empty "p" "f" "x" "t").2 "p" "f" = 1 :=
  ⟨by decide, (save_no_dedup (save_file_version DB.empty "p" "f" "x" "t").2 "p" "f" "t"
      (save_file_version DB.empty "p" "f" "x" "t").1 (by decide)).2.1, by decide⟩

/-- C8: `get_or_create_project` is idempotent by `project_id`: a second call
with the same id but different owner/name arguments returns the same row,
changes nothing in the store, and no duplicate row for the id is ever
created. -/
theorem goc_project_find_some (db : DB) (u pid n : String) (p : ProjectRow)
    (hf : db.projects.find? (fun r => r.id == pid) = some p) :
    get_or_create_project db u pid n = (p, db) := by
  unfold get_or_create_project; rw [hf]

theorem goc_project_find_none (db : DB) (u pid n : String)
    (hf : db.projects.find? (fun r => r.id == pid) = none) :
    get_or_create_project db u pid n =
      (⟨pid, u, n, none, SandboxState.NONE⟩,
       { db with projects := db.projects ++ [⟨pid, u, n, none, SandboxState.NONE⟩] }) := by
  unfold get_or_create_project; rw [hf]

theorem get_or_create_project_idempotent (db : DB) (u1 u2 pid n1 n2 : String) :
    (get_or_create_project (get_or_create_project db u1 pid n1).2 u2 pid n2).1 =
      (get_or_create_project db u1 pid n1).1 ∧
    (get_or_create_project (get_or_create_project db u1 pid n1).2 u2 pid n2).2 =
      (get_or_create_project db u1 pid n1).2 ∧
    (get_or_create_project db u1 pid n1).2.projects.countP (fun r => r.id == pid) =
      max (db.projects.countP (fun r => r.id == pid)) 1 := by
  cases hf : db.projects.find? (fun r => r.id == pid) with
  | some p =>
      have h1 : get_or_create_project db u1 pid n1 = (p, db) :=
        goc_project_find_some db u1 pid n1 p hf
      have hpred := List.find?_some hf
      have hpos : 0 < db.projects.countP (fun r => r.id == pid) :=
        List.countP_pos_iff.mpr ⟨p, List.mem_of_find?_eq_some hf, hpred⟩
      have h2 : get_or_create_project db u2 pid n2 = (p, db) :=
        goc_project_find_some db u2 pid n2 p hf
      refine ⟨?_, ?_, ?_⟩
      · simp [h1, h2]
      · simp [h1, h2]
      · simp only [h1]
        omega
  | none =>
      have hzero : db.projects.countP (fun r => r.id == pid) = 0 :=
        List.countP_eq_zero.mpr (by
          intro a ha
          have := List.find?_eq_none.mp hf a ha
          simpa using this)
      have h1 := goc_project_find_none db u1 pid n1 hf
      have hfind2 : ({ db with projects :=
          db.projects ++ [⟨pid, u1, n1, none, SandboxState.NONE⟩] } : DB).projects.find?
          (fun r => r.id == pid) = some ⟨pid, u1, n1, none, SandboxState.NONE⟩ := by
        simp only [List.find?_append, hf, Option.none_or]
        simp [List.find?_cons]
      have h2 := goc_project_find_some _ u2 pid n2 _ hfind2
      refine ⟨?_, ?_, ?_⟩
      · simp [h1, h2]
      · simp [h1, h2]
      · simp only [h1]
        rw [List.countP_append, hzero]
        simp

/-- C9: `update_sandbox_state` is a silent no-op when the project is absent,
and otherwise overwrites the sandbox identifier and state together, so after
`update (sid1, st1); update (sid2, st2)` every row of the project holds
exactly the pair `(sid2, st2)` — never a mix.  In particular
`update (some "sbx-1", RUNNING)` then `update (none, KILLED)` leaves
`(none, KILLED)`. -/
theorem update_sandbox_state_atomic_pair (db : DB) (pid : String) (s1 s2 : Option String)
    (st1 st2 : SandboxState) :
    (db.projects.find? (fun r => r.id == pid) = none →
      update_sandbox_state db pid s1 st1 = db) ∧
    (∀ r ∈ (update_sandbox_state db pid s1 st1).projects,
      r.id = pid → r.active_sandbox_id = s1 ∧ r.sandbox_state = st1) ∧
    (∀ r ∈ (update_sandbox_state (update_sandbox_state db pid s1 st1) pid s2 st2).projects,
      r.id = pid → r.active_sandbox_id = s2 ∧ r.sandbox_state = st2) := by
  have key : ∀ (d : DB) (s : Option String) (st : SandboxState),
      ∀ r ∈ (update_sandbox_state d pid s st).projects,
        r.id = pid → r.active_sandbox_id = s ∧ r.sandbox_state = st := by
    intro d s st r hr hid
    unfold update_sandbox_state at hr
    cases hf : d.projects.find? (fun r => r.id == pid) with
    | none =>
        rw [hf] at hr
        have := List.find?_eq_none.mp hf r hr
        simp [hid] at this
    | some p =>
        rw [hf] at hr
        simp only [List.mem_map] at hr
        rcases hr with ⟨r0, _, hr0⟩
        by_cases h0 : r0.id = pid
        · rw [if_pos (by simp [h0])] at hr0
          rw [← hr0]
          exact ⟨rfl, rfl⟩
        · rw [if_neg (by simp [h0])] at hr0
          rw [← hr0] at hid
          exact absurd hid h0
  refine ⟨?_, key db s1 st1, key _ s2 st2⟩
  intro hf
  unfold update_sandbox_state
  rw [hf]

/-- C4: `restore_project_files` replays the latest version of every tracked
path through the supplied writer and returns exactly the `(path, version)`
pairs whose writes succeeded, in order — a failing file is skipped without
aborting the files after it. -/
theorem restore_returns_exactly_successes (write : String → String → Bool) (db : DB)
    (pid : String) :
    restore_project_files write db pid =
      (get_all_latest_files db pid).filterMap (fun fv =>
        if write fv.file_path fv.content then some (fv.file_path, fv.version) else none) := by
  unfold restore_project_files
  simpa using restore_foldl_filterMap write (get_all_latest_files db pid) []

/-- C3: in a store whose chains have no duplicated version numbers,
`get_all_latest_files` returns, for each path of the project that has any
version, exactly one row — a stored row of the project at that path's
maximum version — and nothing else. -/
theorem listLatestPerPath_one_row_per_path (db : DB) (pid : String) (r0 : FileVersionRow)
    (h1 : VersionsUnique db) (h2 : r0 ∈ db.fileVersions) (h3 : r0.project_id = pid) :
    (∃! r, r ∈ get_all_latest_files db pid ∧ r.file_path = r0.file_path) ∧
    (∀ r ∈ get_all_latest_files db pid,
      r ∈ db.fileVersions ∧ r.project_id = pid ∧
      r.version = latestVersion db pid r.file_path) := by
  have hmemP : ∀ r ∈ get_all_latest_files db pid,
      r ∈ db.fileVersions ∧ r.project_id = pid ∧
      r.version = latestVersion db pid r.file_path := by
    intro r hr
    rcases List.mem_filter.mp hr with ⟨hmem, hpred⟩
    simp only [Bool.and_eq_true, beq_iff_eq] at hpred
    exact ⟨hmem, hpred.1, hpred.2⟩
  refine ⟨?_, hmemP⟩
  have hr0chain : r0 ∈ chainRows db pid r0.file_path :=
    List.mem_filter.mpr ⟨h2, by simp [h3]⟩
  have hvne : (chainRows db pid r0.file_path).map FileVersionRow.version ≠ [] := by
    intro hnil
    rw [List.map_eq_nil_iff] at hnil
    rw [hnil] at hr0chain
    exact absurd hr0chain (List.not_mem_nil r0)
  have hmax : latestVersion db pid r0.file_path ∈
      (chainRows db pid r0.file_path).map FileVersionRow.version := by
    rw [latestVersion_eq_fold]
    exact foldl_max_zero_mem _ hvne
  rcases List.mem_map.mp hmax with ⟨rmax, hrmax_mem, hrmax_v⟩
  rcases List.mem_filter.mp hrmax_mem with ⟨hrmax_db, hrmax_pred⟩
  simp only [Bool.and_eq_true, beq_iff_eq] at hrmax_pred
  have hrmax_res : rmax ∈ get_all_latest_files db pid := by
    apply List.mem_filter.mpr
    refine ⟨hrmax_db, ?_⟩
    simp only [Bool.and_eq_true, beq_iff_eq]
    exact ⟨hrmax_pred.1, by rw [hrmax_pred.2, hrmax_v]⟩
  refine ⟨rmax, ⟨hrmax_res, hrmax_pred.2⟩, ?_⟩
  intro y hy
  rcases hy with ⟨hy_res, hy_path⟩
  rcases hmemP y hy_res with ⟨hy_db, hy_pid, hy_v⟩
  apply h1 y hy_db rmax hrmax_db
  · rw [hy_pid, hrmax_pred.1]
  · rw [hy_path, hrmax_pred.2]
  · rw [hy_v, hy_path, hrmax_v]

/-! ### The integration-layer claims -/

theorem neverFails_pure {α : Type} (a : α) : NeverFails (pure a : M α) :=
  fun w => ⟨a, w, rfl⟩

theorem neverFails_tryCatchM {α : Type} (x : M α) (h : DbError → M α)
    (hh : ∀ e, NeverFails (h e)) : NeverFails (tryCatchM x h) := by
  intro w
  unfold tryCatchM
  rcases hx : x w with ⟨r, w'⟩
  cases r with
  | ok a => exact ⟨a, w', rfl⟩
  | error e =>
      rcases hh e w' with ⟨a, w'', h2⟩
      exact ⟨a, w'', h2⟩

theorem neverFails_bind {α β : Type} (x : M α) (f : α → M β)
    (hx : NeverFails x) (hf : ∀ a, NeverFails (f a)) : NeverFails (x >>= f) := by
  intro w
  rcases hx w with ⟨a, w', h1⟩
  rcases hf a w' with ⟨b, w'', h2⟩
  refine ⟨b, w'', ?_⟩
  show (match x w with
    | (Except.ok a, w') => f a w'
    | (Except.error e, w') => (Except.error e, w')) = (Except.ok b, w'')
  rw [h1]
  exact h2

theorem ensure_no_error (t : Tracker) : NeverFails (ensure_project_exists t) := by
  unfold ensure_project_exists
  by_cases h : t.initialized
  · rw [if_pos h]
    exact neverFails_pure t
  · rw [if_neg h]
    exact neverFails_tryCatchM _ _ (fun _ => neverFails_pure t)

/-- C5: `track_file_write` never propagates an exception: for every store
state and fault schedule it returns normally with a `Bool`, and when the
save statement faults it returns `false` (here with the bootstrap already
done, so the fault hits `save_file_version`), leaving the store as it
was. -/
theorem track_file_write_never_raises :
    (∀ (t : Tracker) (file_path content tool : String) (w : World),
      ∃ b t' w', track_file_write t file_path content tool w = (Except.ok (b, t'), w')) ∧
    (∀ (uid pid file_path content tool : String) (db : DB) (fs : List Bool),
      track_file_write ⟨uid, pid, true⟩ file_path content tool ⟨db, true :: fs⟩ =
        (Except.ok (false, ⟨uid, pid, true⟩), ⟨db, fs⟩)) := by
  constructor
  · intro t p c tool w
    have h : NeverFails (track_file_write t p c tool) := by
      unfold track_file_write
      exact neverFails_bind _ _ (ensure_no_error t)
        (fun t1 => neverFails_tryCatchM _ _ (fun _ => neverFails_pure (false, t1)))
    rcases h w with ⟨a, w', hw⟩
    exact ⟨a.1, a.2, w', hw⟩
  · intro uid pid p c tool db fs
    rfl

/-- C6 counterexample: with a fault scheduled on the first awaited
statement, the underlying session lookup raises (second conjunct), yet
`get_or_create_session` returns `Except.ok none` (first conjunct) — the
exception is caught rather than reaching the caller, refuting the claim
that SessionRegistry operations propagate failures unswallowed. -/
theorem get_or_create_session_swallows_counterexample :
    get_or_create_session "p" (some "s") ⟨DB.empty, [true]⟩ =
      (Except.ok none, ⟨DB.empty, []⟩) ∧
    (fallible (fun db => (db.sessions.find? (fun r => r.agno_session_id == some "s"), db)) :
        M (Option SessionRow)) ⟨DB.empty, [true]⟩ =
      (Except.error DbError.transport, ⟨DB.empty, []⟩) :=
  ⟨rfl, rfl⟩

/-- C6 amended: `get_or_create_session` and `end_session` catch store
failures instead of propagating them: on every state and fault schedule
both return normally, and when the underlying statement raises,
`get_or_create_session` returns `none` with the store untouched. -/
theorem session_registry_catches_failures :
    (∀ (pid : String) (sid : Option String) (w : World),
      ∃ r w', get_or_create_session pid sid w = (Except.ok r, w')) ∧
    (∀ (sid : String) (w : World), ∃ w', end_session sid w = (Except.ok (), w')) ∧
    (∀ (pid : String) (db : DB) (fs : List Bool),
      get_or_create_session pid (some "sid") ⟨db, true :: fs⟩ =
        (Except.ok none, ⟨db, fs⟩)) := by
  refine ⟨?_, ?_, ?_⟩
  · intro pid sid w
    exact neverFails_tryCatchM _ _ (fun _ => neverFails_pure none) w
  · intro sid w
    rcases neverFails_tryCatchM _ _ (fun _ => neverFails_pure ()) w with ⟨a, w', hw⟩
    exact ⟨w', hw⟩
  · intro pid db fs
    rfl

/-- C10: when the external-session-id lookup hits, `get_or_create_session`
touches `last_active` and returns that row's id whatever `project_id`
argument was passed — the project is absent from the lookup, so the
returned session may belong to a different project; no row is inserted or
re-parented. -/
theorem M_bind_run {α β : Type} (x : M α) (f : α → M β) (w w1 : World) (a : α)
    (r : Except DbError β × World) (hx : x w = (Except.ok a, w1)) (hf : f a w1 = r) :
    (x >>= f) w = r := by
  show (match x w with
    | (Except.ok a, w') => f a w'
    | (Except.error e, w') => (Except.error e, w')) = r
  rw [hx]
  exact hf

theorem tryCatchM_ok {α : Type} (x : M α) (h : DbError → M α) (w w' : World) (a : α)
    (hx : x w = (Except.ok a, w')) : tryCatchM x h w = (Except.ok a, w') := by
  unfold tryCatchM
  rw [hx]

theorem txnM_ok_nofault {α : Type} (body : M α) (w : World) (db' : DB) (a : α)
    (hb : body w = (Except.ok a, ⟨db', []⟩)) : txnM body w = (Except.ok a, ⟨db', []⟩) := by
  unfold txnM
  rw [hb]

theorem fallible_nofault {α : Type} (f : DB → α × DB) (db : DB) :
    fallible f ⟨db, []⟩ = (Except.ok (f db).1, ⟨(f db).2, []⟩) := rfl

theorem get_or_create_session_hit_ignores_project (db : DB) (pid sid : String)
    (sess : SessionRow) (hs : sid.isEmpty = false)
    (hfind : db.sessions.find? (fun r => r.agno_session_id == some sid) = some sess) :
    get_or_create_session pid (some sid) ⟨db, []⟩ =
      (Except.ok (some sess.rowId),
       ⟨{ db with sessions := db.sessions.map (fun r =>
            if r.rowId == sess.rowId then { r with last_active := db.now } else r) }, []⟩) := by
  have hX : (if sid.isEmpty then pure none
      else fallible (fun db =>
        (db.sessions.find? (fun r => r.agno_session_id == some sid), db)) :
      M (Option SessionRow)) ⟨db, []⟩ = (Except.ok (some sess), ⟨db, []⟩) := by
    rw [hs]
    simp only [Bool.false_eq_true, if_false, fallible_nofault]
    rw [hfind]
  unfold get_or_create_session
  apply tryCatchM_ok
  apply txnM_ok_nofault
  exact M_bind_run _ _ _ _ (some sess) _ hX rfl

/-- A store holding one session, belonging to project `other`, linked to
external session id `s` — the C10 scenario. -/
def exampleSessionDB : DB :=
  { DB.empty with
    sessions := [⟨7, "other", some "s", SessionStatus.ACTIVE, 0, none⟩], nextRowId := 8 }

/-- C10 witness: looking up external id `s` under project `p` returns the
session of project `other`, touching only `last_active`. -/
theorem get_or_create_session_hit_ignores_project_witness :
    ("s".isEmpty = false ∧
      exampleSessionDB.sessions.find? (fun r => r.agno_session_id == some "s") =
        some ⟨7, "other", some "s", SessionStatus.ACTIVE, 0, none⟩) ∧
    get_or_create_session "p" (some "s") ⟨exampleSessionDB, []⟩ =
      (Except.ok (some 7),
       ⟨{ exampleSessionDB with sessions := exampleSessionDB.sessions.map (fun r =>
            if r.rowId == 7 then { r with last_active := exampleSessionDB.now } else r) },
        []⟩) :=
  ⟨⟨rfl, by decide⟩,
   get_or_create_session_hit_ignores_project exampleSessionDB "p" "s"
     ⟨7, "other", some "s", SessionStatus.ACTIVE, 0, none⟩ rfl (by decide)⟩

/-- The spec's §8 example store for `get_all_latest_files`: path `A` at
versions 1..3 and path `B` at version 1, under one project. -/
def exampleLatestDB : DB :=
  appendAll (appendAll DB.empty "p" "A" [("1", "t"), ("2", "t"), ("3", "t")]) "p" "B" [("1", "t")]

/-- The first row of `exampleLatestDB`: path `A` at version 1. -/
def exampleRowA1 : FileVersionRow :=
  { rowId := 0, project_id := "p", file_path := "A", content := "1", size_bytes := 1,
    version := 1, diff_from_previous := none, created_by_tool := "t" }

/-- C3 witness: paths `A` at versions 1..3 and `B` at version 1 give exactly
one row for path `A`, and overall exactly the two rows `A` at 3 and `B`
at 1 (hypotheses checked on the concrete store). -/
theorem listLatestPerPath_one_row_per_path_witness :
    (VersionsUnique exampleLatestDB ∧ exampleRowA1 ∈ exampleLatestDB.fileVersions ∧
      exampleRowA1.project_id = "p") ∧
    (∃! r, r ∈ get_all_latest_files exampleLatestDB "p" ∧ r.file_path = exampleRowA1.file_path) ∧
    ((get_all_latest_files exampleLatestDB "p").map (fun r => (r.file_path, r.version)) =
      [("A", 3), ("B", 1)]) :=
  ⟨⟨by decide, by decide, by decide⟩,
   (listLatestPerPath_one_row_per_path exampleLatestDB "p" exampleRowA1
      (by decide) (by decide) (by decide)).1,
   by decide⟩

/-! ### C2 layer A: splitting into lines -/

theorem splitNLAux_nil (acc : List Char) :
    splitNLAux [] acc = if acc.isEmpty then [] else [acc.reverse] := rfl

theorem splitNLAux_cons (c : Char) (rest acc : List Char) :
    splitNLAux (c :: rest) acc =
      if c == '\n' then (acc.reverse ++ ['\n']) :: splitNLAux rest []
      else splitNLAux rest (c :: acc) := rfl

theorem splitlinesAux_cons_not_cr (c : Char) (rest acc : List Char) (hc : c ≠ '\r') :
    splitlinesAux (c :: rest) acc =
      if isLineBreak c then (acc.reverse ++ [c]) :: splitlinesAux rest []
      else splitlinesAux rest (c :: acc) := by
  rw [splitlinesAux.eq_def]
  split
  · rename_i heq
    simp at heq
  · rename_i rest2 heq
    injection heq with h1 h2
    exact absurd h1 hc
  · rename_i c2 rest2 heq
    injection heq with h1 h2
    subst h1
    subst h2
    rfl

theorem splitNLAux_flatten (cs : List Char) :
    ∀ acc, (splitNLAux cs acc).flatten = acc.reverse ++ cs := by
  induction cs with
  | nil =>
      intro acc
      rw [splitNLAux_nil]
      by_cases h : acc.isEmpty
      · rw [if_pos h]
        simp [List.isEmpty_iff.mp h]
      · rw [if_neg h]
        simp
  | cons c rest ih =>
      intro acc
      rw [splitNLAux_cons]
      by_cases h : c == '\n'
      · rw [if_pos h]
        simp only [List.flatten_cons, ih]
        simp [beq_iff_eq.mp h]
      · rw [if_neg h]
        rw [ih (c :: acc)]
        simp

theorem splitNL_flatten (cs : List Char) : (splitNL cs).flatten = cs := by
  unfold splitNL
  rw [splitNLAux_flatten]
  rfl

theorem splitNLAux_body_nl (body : List Char) (hb : ∀ c ∈ body, c ≠ '\n') :
    ∀ (rest : List Char) (acc : List Char),
      splitNLAux (body ++ '\n' :: rest) acc =
        (acc.reverse ++ body ++ ['\n']) :: splitNLAux rest [] := by
  induction body with
  | nil =>
      intro rest acc
      simp only [List.nil_append]
      rw [splitNLAux_cons, if_pos (by decide)]
      simp
  | cons c body' ih =>
      intro rest acc
      have hc : c ≠ '\n' := hb c (List.mem_cons_self _ _)
      simp only [List.cons_append]
      rw [splitNLAux_cons, if_neg (by simpa using hc)]
      rw [ih (fun x hx => hb x (List.mem_cons_of_mem _ hx)) rest (c :: acc)]
      simp

theorem splitNL_cons_line (l : Line) (rest : List Char) (hl : NLLine l) :
    splitNL (l ++ rest) = l :: splitNL rest := by
  rcases hl with ⟨hne, hlast, hbody⟩
  have hdecomp : l.dropLast ++ ['\n'] = l := by
    have h1 : l.dropLast ++ [l.getLast hne] = l := List.dropLast_concat_getLast hne
    have h2 : l.getLast hne = '\n' := by
      have h3 := List.getLast?_eq_getLast l hne
      rw [h3] at hlast
      exact Option.some.inj hlast
    rw [h2] at h1
    exact h1
  conv_lhs => rw [← hdecomp]
  unfold splitNL
  rw [List.append_assoc, List.singleton_append, splitNLAux_body_nl l.dropLast hbody rest []]
  simp [hdecomp]

theorem splitNL_flatten_lines (ls : List Line) (h : ∀ l ∈ ls, NLLine l) :
    splitNL ls.flatten = ls := by
  induction ls with
  | nil => rfl
  | cons l ls' ih =>
      rw [List.flatten_cons, splitNL_cons_line l ls'.flatten (h l (List.mem_cons_self _ _))]
      rw [ih (fun x hx => h x (List.mem_cons_of_mem _ hx))]

theorem splitlinesAux_eq_splitNLAux (cs : List Char)
    (h : ∀ c ∈ cs, isLineBreak c = true → c = '\n') :
    ∀ acc, splitlinesAux cs acc = splitNLAux cs acc := by
  induction cs with
  | nil => intro acc; rfl
  | cons c rest ih =>
      intro acc
      have hc : c ≠ '\r' := by
        intro hr
        subst hr
        have h2 := h '\r' (List.mem_cons_self _ _) (by decide)
        simp at h2
      have hrest : ∀ x ∈ rest, isLineBreak x = true → x = '\n' :=
        fun x hx => h x (List.mem_cons_of_mem _ hx)
      rw [splitlinesAux_cons_not_cr c rest acc hc, splitNLAux_cons]
      by_cases hnl : c = '\n'
      · subst hnl
        rw [if_pos (by decide), if_pos (by decide), ih hrest []]
      · have hbrk : isLineBreak c = false := by
          cases hbc : isLineBreak c with
          | false => rfl
          | true => exact absurd (h c (List.mem_cons_self _ _) hbc) hnl
        rw [if_neg (by simp [hbrk]), if_neg (by simpa using hnl), ih hrest (c :: acc)]

theorem splitlinesKeepends_eq_splitNL (s : String) (h : Tame s) :
    splitlinesKeepends s = splitNL s.data :=
  splitlinesAux_eq_splitNLAux s.data h.1 []

theorem splitNLAux_lines_NL (cs : List Char) :
    ∀ acc, (∀ c ∈ acc, c ≠ '\n') →
      ((cs = [] ∧ acc = []) ∨ cs.getLast? = some '\n') →
      ∀ l ∈ splitNLAux cs acc, NLLine l := by
  induction cs with
  | nil =>
      intro acc hacc h l hl
      rcases h with ⟨_, rfl⟩ | h
      · simp [splitNLAux_nil] at hl
      · simp at h
  | cons c rest ih =>
      intro acc hacc h l hl
      have hlast : (c :: rest).getLast? = some '\n' := by
        rcases h with ⟨h1, _⟩ | h
        · exact absurd h1 (by simp)
        · exact h
      rw [splitNLAux_cons] at hl
      by_cases hc : c == '\n'
      · rw [if_pos hc] at hl
        rcases List.mem_cons.mp hl with hl | hl
        · subst hl
          refine ⟨by simp, by simp, ?_⟩
          rw [List.dropLast_concat]
          intro x hx
          exact hacc x (by simpa using hx)
        · apply ih [] (by simp) ?_ l hl
          cases rest with
          | nil => exact Or.inl ⟨rfl, rfl⟩
          | cons r rest2 =>
              right
              rw [List.getLast?_cons_cons] at hlast
              exact hlast
      · rw [if_neg hc] at hl
        have hcne : c ≠ '\n' := by simpa using hc
        apply ih (c :: acc) ?_ ?_ l hl
        · intro x hx
          rcases List.mem_cons.mp hx with rfl | hx
          · exact hcne
          · exact hacc x hx
        · cases rest with
          | nil =>
              exfalso
              simp at hlast
              exact hcne hlast
          | cons r rest2 =>
              right
              rw [List.getLast?_cons_cons] at hlast
              exact hlast

theorem splitNL_lines_NL (cs : List Char) (h : cs ≠ [] → cs.getLast? = some '\n') :
    ∀ l ∈ splitNL cs, NLLine l := by
  cases hcs : cs with
  | nil => intro l hl; simp [splitNL, splitNLAux_nil] at hl
  | cons c rest =>
      apply splitNLAux_lines_NL (c :: rest) [] (by simp)
      right
      rw [← hcs]
      exact h (by rw [hcs]; simp)

/-! ### C2 layer B: decimal rendering and parsing -/

theorem digitChar_isDigit (n : Nat) (h : n < 10) : (digitChar n).isDigit = true := by
  interval_cases n <;> decide

theorem digitChar_val (n : Nat) (h : n < 10) : (digitChar n).toNat = 48 + n := by
  interval_cases n <;> decide

theorem natToDecAux_digits (fuel n : Nat) (h : n < fuel) :
    natToDecAux fuel n ≠ [] ∧ (∀ c ∈ natToDecAux fuel n, c.isDigit = true) := by
  induction fuel generalizing n with
  | zero => omega
  | succ f ih =>
      unfold natToDecAux
      by_cases h10 : n < 10
      · rw [if_pos h10]
        refine ⟨by simp, ?_⟩
        intro c hc
        simp only [List.mem_singleton] at hc
        subst hc
        exact digitChar_isDigit n h10
      · rw [if_neg h10]
        have hrec : n / 10 < f := by omega
        rcases ih (n / 10) hrec with ⟨hne, hdig⟩
        constructor
        · simp [hne]
        · intro c hc
          rcases List.mem_append.mp hc with hc | hc
          · exact hdig c hc
          · simp only [List.mem_singleton] at hc
            subst hc
            exact digitChar_isDigit (n % 10) (Nat.mod_lt _ (by norm_num))

theorem parseFold_natToDecAux (fuel n : Nat) (h : n < fuel) : ∀ acc,
    (natToDecAux fuel n).foldl (fun acc c => acc * 10 + (c.toNat - 48)) acc =
      acc * 10 ^ (natToDecAux fuel n).length + n := by
  induction fuel generalizing n with
  | zero => omega
  | succ f ih =>
      intro acc
      unfold natToDecAux
      by_cases h10 : n < 10
      · rw [if_pos h10]
        simp only [List.foldl_cons, List.foldl_nil, List.length_singleton, pow_one,
          digitChar_val n h10]
        omega
      · rw [if_neg h10]
        rw [List.foldl_append, ih (n / 10) (by omega) acc]
        simp only [List.foldl_cons, List.foldl_nil, List.length_append,
          List.length_singleton, digitChar_val (n % 10) (Nat.mod_lt _ (by norm_num))]
        have hmod : n / 10 * 10 + (48 + n % 10 - 48) = n := by omega
        calc (acc * 10 ^ (natToDecAux f (n / 10)).length + n / 10) * 10 + (48 + n % 10 - 48)
            = acc * (10 ^ (natToDecAux f (n / 10)).length * 10) +
              (n / 10 * 10 + (48 + n % 10 - 48)) := by ring
          _ = acc * 10 ^ ((natToDecAux f (n / 10)).length + 1) + n := by
              rw [hmod, pow_succ]

theorem natToDec_digits (n : Nat) :
    natToDec n ≠ [] ∧ ∀ c ∈ natToDec n, c.isDigit = true :=
  natToDecAux_digits (n + 1) n (by omega)

theorem parseNatChars_natToDec (n : Nat) : parseNatChars (natToDec n) = some n := by
  unfold parseNatChars
  rcases natToDec_digits n with ⟨hne, hdig⟩
  rw [if_neg (by
    simp only [Bool.or_eq_true, List.isEmpty_iff, Bool.not_eq_true', List.all_eq_true]
    push_neg
    exact ⟨hne, by simp [List.all_eq_true]; exact hdig⟩)]
  have h := parseFold_natToDecAux (n + 1) n (by omega) 0
  unfold natToDec at *
  rw [h]
  simp

theorem isDigit_ne_special (c : Char) (h : c.isDigit = true) :
    c ≠ '\n' ∧ c ≠ ' ' ∧ c ≠ ',' ∧ c ≠ '@' ∧ c ≠ '-' ∧ c ≠ '+' ∧ c ≠ '\r' := by
  refine ⟨?_, ?_, ?_, ?_, ?_, ?_, ?_⟩ <;>
    (intro he; subst he; exact absurd h (by decide))

/-! ### C2 layer C: hunk headers format and parse -/

theorem breakAt_cons (sep c : Char) (rest : List Char) :
    breakAt sep (c :: rest) =
      if c == sep then ([], c :: rest)
      else (c :: (breakAt sep rest).1, (breakAt sep rest).2) := rfl

theorem breakAt_split (sep : Char) (xs : List Char) (h : ∀ c ∈ xs, c ≠ sep) :
    ∀ ys, (ys = [] ∨ ∃ t, ys = sep :: t) → breakAt sep (xs ++ ys) = (xs, ys) := by
  induction xs with
  | nil =>
      intro ys hys
      rcases hys with rfl | ⟨t, rfl⟩
      · rfl
      · rw [List.nil_append, breakAt_cons, if_pos (by simp)]
  | cons x xs2 ih =>
      intro ys hys
      have hx : x ≠ sep := h x (List.mem_cons_self _ _)
      rw [List.cons_append, breakAt_cons, if_neg (by simpa using hx),
        ih (fun c hc => h c (List.mem_cons_of_mem _ hc)) ys hys]

theorem natToDec_no_comma (n : Nat) : ∀ c ∈ natToDec n, c ≠ ',' :=
  fun c hc => (isDigit_ne_special c ((natToDec_digits n).2 c hc)).2.2.1

theorem natToDec_no_space (n : Nat) : ∀ c ∈ natToDec n, c ≠ ' ' :=
  fun c hc => (isDigit_ne_special c ((natToDec_digits n).2 c hc)).2.1

theorem formatRange_no_space (start stop : Nat) :
    ∀ c ∈ formatRangeUnified start stop, c ≠ ' ' := by
  intro c hc
  unfold formatRangeUnified at hc
  by_cases h1 : stop - start = 1
  · rw [if_pos h1] at hc
    exact natToDec_no_space _ c hc
  · rw [if_neg h1] at hc
    rcases List.mem_append.mp hc with hc | hc
    · rcases List.mem_append.mp hc with hc | hc
      · exact natToDec_no_space _ c hc
      · simp only [List.mem_singleton] at hc
        subst hc
        decide
    · exact natToDec_no_space _ c hc

theorem formatRange_no_nl (start stop : Nat) :
    ∀ c ∈ formatRangeUnified start stop, c ≠ '\n' := by
  intro c hc
  unfold formatRangeUnified at hc
  by_cases h1 : stop - start = 1
  · rw [if_pos h1] at hc
    exact (isDigit_ne_special c ((natToDec_digits _).2 c hc)).1
  · rw [if_neg h1] at hc
    rcases List.mem_append.mp hc with hc | hc
    · rcases List.mem_append.mp hc with hc | hc
      · exact (isDigit_ne_special c ((natToDec_digits _).2 c hc)).1
      · simp only [List.mem_singleton] at hc
        subst hc
        decide
    · exact (isDigit_ne_special c ((natToDec_digits _).2 c hc)).1

theorem parseRange_formatRange (start stop : Nat) :
    parseRange (formatRangeUnified start stop) =
      some (if stop - start = 0 then start else start + 1, stop - start) := by
  unfold formatRangeUnified parseRange
  by_cases h1 : stop - start = 1
  · rw [if_pos h1]
    have hb : breakAt ',' (natToDec (start + 1)) = (natToDec (start + 1), []) := by
      have h2 := breakAt_split ',' (natToDec (start + 1)) (natToDec_no_comma _) []
        (Or.inl rfl)
      simpa using h2
    rw [hb]
    simp only [parseNatChars_natToDec, Option.map_some']
    rw [h1]
    simp [h1]
  · rw [if_neg h1]
    have hb : breakAt ','
        (natToDec (if stop - start = 0 then start + 1 - 1 else start + 1) ++ [','] ++
          natToDec (stop - start)) =
        (natToDec (if stop - start = 0 then start + 1 - 1 else start + 1),
         ',' :: natToDec (stop - start)) := by
      rw [List.append_assoc]
      exact breakAt_split ',' _ (natToDec_no_comma _) _ (Or.inr ⟨_, rfl⟩)
    rw [hb]
    simp only [parseNatChars_natToDec, Option.bind_eq_bind]
    by_cases h0 : stop - start = 0
    · simp [h0]
    · simp [h0]

theorem parseHunkHeader_arm (rest : List Char) :
    parseHunkHeader ('@' :: '@' :: ' ' :: '-' :: rest) =
      (match (breakAt ' ' rest).2 with
       | ' ' :: '+' :: rest2 =>
           if (breakAt ' ' rest2).2 == [' ', '@', '@', '\n'] then do
             let sr ← parseRange (breakAt ' ' rest).1
             let tr ← parseRange (breakAt ' ' rest2).1
             pure (sr.1, sr.2, tr.1, tr.2)
           else none
       | _ => none) := rfl

theorem parseHunkHeader_format (i1 i2 j1 j2 : Nat) :
    parseHunkHeader (['@', '@', ' ', '-'] ++ formatRangeUnified i1 i2 ++ [' ', '+'] ++
        formatRangeUnified j1 j2 ++ [' ', '@', '@', '\n']) =
      some (if i2 - i1 = 0 then i1 else i1 + 1, i2 - i1,
            if j2 - j1 = 0 then j1 else j1 + 1, j2 - j1) := by
  have hb1 : breakAt ' ' (formatRangeUnified i1 i2 ++
        ' ' :: '+' :: (formatRangeUnified j1 j2 ++ [' ', '@', '@', '\n'])) =
      (formatRangeUnified i1 i2,
       ' ' :: '+' :: (formatRangeUnified j1 j2 ++ [' ', '@', '@', '\n'])) :=
    breakAt_split ' ' _ (formatRange_no_space _ _) _ (Or.inr ⟨_, rfl⟩)
  have hb2 : breakAt ' ' (formatRangeUnified j1 j2 ++ [' ', '@', '@', '\n']) =
      (formatRangeUnified j1 j2, [' ', '@', '@', '\n']) :=
    breakAt_split ' ' _ (formatRange_no_space _ _) _ (Or.inr ⟨_, rfl⟩)
  have hassoc : ['@', '@', ' ', '-'] ++ formatRangeUnified i1 i2 ++ [' ', '+'] ++
        formatRangeUnified j1 j2 ++ [' ', '@', '@', '\n'] =
      '@' :: '@' :: ' ' :: '-' :: (formatRangeUnified i1 i2 ++
        ' ' :: '+' :: (formatRangeUnified j1 j2 ++ [' ', '@', '@', '\n'])) := by
    simp
  rw [hassoc, parseHunkHeader_arm]
  simp only [hb1, hb2]
  simp only [parseRange_formatRange, beq_self_eq_true, if_pos, Option.bind_eq_bind,
    Option.some_bind]
  rfl

/-! ### C2 layer D: validity of find_longest_match -/

theorem mem_indicesOf (b : List Line) (x : Line) (j : Nat) (h : j ∈ indicesOf b x) :
    j < b.length ∧ b.getD j [] = x := by
  unfold indicesOf at h
  rcases List.mem_filter.mp h with ⟨hr, hx⟩
  exact ⟨List.mem_range.mp hr, beq_iff_eq.mp hx⟩

theorem mem_b2jIdxs (b : List Line) (x : Line) (j : Nat) (h : j ∈ b2jIdxs b x) :
    j < b.length ∧ b.getD j [] = x := by
  have h2 : b2jIdxs b x =
      if (decide (200 ≤ b.length) && decide (b.length / 100 + 1 < (indicesOf b x).length)) = true
      then [] else indicesOf b x := rfl
  rw [h2] at h
  split at h
  · exact absurd h (List.not_mem_nil j)
  · exact mem_indicesOf b x j h

theorem matchAt_zero (a b : List Line) (i j : Nat) : MatchAt a b i j 0 :=
  fun t ht => absurd ht (Nat.not_lt_zero t)

theorem matchAt_extend_up (a b : List Line) (i j k : Nat) (h : MatchAt a b i j k)
    (he : a.getD (i + k) [] = b.getD (j + k) []) : MatchAt a b i j (k + 1) := by
  intro t ht
  rcases Nat.lt_succ_iff_lt_or_eq.mp ht with ht | rfl
  · exact h t ht
  · exact he

theorem matchAt_extend_down (a b : List Line) (i j k : Nat) (hi : 1 ≤ i) (hj : 1 ≤ j)
    (h : MatchAt a b i j k) (he : a.getD (i - 1) [] = b.getD (j - 1) []) :
    MatchAt a b (i - 1) (j - 1) (k + 1) := by
  intro t ht
  cases t with
  | zero => simpa using he
  | succ t2 =>
      have e1 : i - 1 + (t2 + 1) = i + t2 := by omega
      have e2 : j - 1 + (t2 + 1) = j + t2 := by omega
      rw [e1, e2]
      exact h t2 (by omega)

theorem bestOK_mono (a b : List Line) (alo blo bhi : Nat) (ihi ihi2 : Nat)
    (h : ihi ≤ ihi2) (best : Nat × Nat × Nat) (hb : BestOK a b alo ihi blo bhi best) :
    BestOK a b alo ihi2 blo bhi best := by
  rcases hb with ⟨h1, h2, h3, h4, h5⟩
  exact ⟨h1, h2, by omega, h4, h5⟩

theorem flmInner_cons (blo bhi i : Nat) (j2len : Nat → Nat) (j : Nat) (rest : List Nat)
    (newj2len : Nat → Nat) (best : Nat × Nat × Nat) :
    flmInner blo bhi i j2len (j :: rest) newj2len best =
      if j < blo then flmInner blo bhi i j2len rest newj2len best
      else if bhi ≤ j then (newj2len, best)
      else
        flmInner blo bhi i j2len rest
          (fun j2 => if j2 = j then (if j = 0 then 0 else j2len (j - 1)) + 1 else newj2len j2)
          (if best.2.2 < (if j = 0 then 0 else j2len (j - 1)) + 1
           then (i + 1 - ((if j = 0 then 0 else j2len (j - 1)) + 1),
                 j + 1 - ((if j = 0 then 0 else j2len (j - 1)) + 1),
                 (if j = 0 then 0 else j2len (j - 1)) + 1)
           else best) := rfl

theorem flmInner_ok (a b : List Line) (alo blo bhi i : Nat) (hai : alo ≤ i)
    (j2len : Nat → Nat) (hj2 : J2LenOK a b alo blo bhi i j2len) :
    ∀ (js : List Nat) (newj2len : Nat → Nat) (best : Nat × Nat × Nat),
      (∀ j ∈ js, j < b.length ∧ b.getD j [] = a.getD i []) →
      J2LenOK a b alo blo bhi (i + 1) newj2len →
      BestOK a b alo (i + 1) blo bhi best →
      J2LenOK a b alo blo bhi (i + 1) (flmInner blo bhi i j2len js newj2len best).1 ∧
      BestOK a b alo (i + 1) blo bhi (flmInner blo bhi i j2len js newj2len best).2 := by
  intro js
  induction js with
  | nil => intro newj2len best _ hnew hbest; exact ⟨hnew, hbest⟩
  | cons j rest ih =>
      intro newj2len best hjs hnew hbest
      rw [flmInner_cons]
      by_cases hlo : j < blo
      · rw [if_pos hlo]
        exact ih newj2len best (fun x hx => hjs x (List.mem_cons_of_mem _ hx)) hnew hbest
      · rw [if_neg hlo]
        by_cases hhi : bhi ≤ j
        · rw [if_pos hhi]
          exact ⟨hnew, hbest⟩
        · rw [if_neg hhi]
          have hblo : blo ≤ j := by omega
          have hbhi : j < bhi := by omega
          have hab : b.getD j [] = a.getD i [] := (hjs j (List.mem_cons_self _ _)).2
          -- the chain value k and its match
          set k := (if j = 0 then 0 else j2len (j - 1)) + 1 with hk
          have hkfacts : k ≤ j + 1 - blo ∧ k ≤ i + 1 - alo ∧
              MatchAt a b (i + 1 - k) (j + 1 - k) k := by
            by_cases hj0 : j = 0
            · subst hj0
              have hk1 : k = 1 := by rw [hk]; simp
              rw [hk1]
              refine ⟨by omega, by omega, ?_⟩
              intro t ht
              have ht0 : t = 0 := by omega
              subst ht0
              have e1 : i + 1 - 1 + 0 = i := by omega
              have e2 : 0 + 1 - 1 + 0 = 0 := by omega
              rw [e1, e2]
              exact hab.symm
            · by_cases hz : j2len (j - 1) = 0
              · have hk1 : k = 1 := by rw [hk]; simp [hj0, hz]
                rw [hk1]
                refine ⟨by omega, by omega, ?_⟩
                intro t ht
                have ht0 : t = 0 := by omega
                subst ht0
                have e1 : i + 1 - 1 + 0 = i := by omega
                have e2 : j + 1 - 1 + 0 = j := by omega
                rw [e1, e2]
                exact hab.symm
              · rcases hj2 (j - 1) hz with ⟨hp1, hp2, hp3, hp4, hpm⟩
                have hkk : k = j2len (j - 1) + 1 := by rw [hk]; simp [hj0]
                set k2 := j2len (j - 1) with hk2
                have hj1 : j - 1 + 1 = j := by omega
                rw [hj1] at hp3
                have e1 : i + 1 - k = i - k2 := by omega
                have e2 : j + 1 - k = j - k2 := by omega
                refine ⟨by omega, by omega, ?_⟩
                rw [e1, e2, hkk]
                have hpm2 : MatchAt a b (i - k2) (j - k2) k2 := by
                  have e3 : i - k2 = i - k2 := rfl
                  have e4 : j - 1 + 1 - k2 = j - k2 := by omega
                  rw [e4] at hpm
                  exact hpm
                apply matchAt_extend_up a b (i - k2) (j - k2) k2 hpm2
                have e5 : i - k2 + k2 = i := by omega
                have e6 : j - k2 + k2 = j := by omega
                rw [e5, e6]
                exact hab.symm
          rcases hkfacts with ⟨hkf1, hkf2, hkfm⟩
          apply ih
          · exact fun x hx => hjs x (List.mem_cons_of_mem _ hx)
          · intro j2 hj2ne
            by_cases hjj : j2 = j
            · subst hjj
              simp only [if_pos rfl] at hj2ne ⊢
              exact ⟨hblo, hbhi, hkf1, hkf2, hkfm⟩
            · simp only [if_neg hjj] at hj2ne ⊢
              exact hnew j2 hj2ne
          · by_cases hbk : best.2.2 < k
            · rw [if_pos hbk]
              refine ⟨?_, ?_, ?_, ?_, ?_⟩
              · show alo ≤ i + 1 - k
                omega
              · show blo ≤ j + 1 - k
                omega
              · show i + 1 - k + k ≤ i + 1
                omega
              · show j + 1 - k + k ≤ bhi
                omega
              · show MatchAt a b (i + 1 - k) (j + 1 - k) k
                exact hkfm
            · rw [if_neg hbk]
              exact hbest

theorem flmOuter_succ (a b : List Line) (blo bhi count i : Nat) (j2len : Nat → Nat)
    (best : Nat × Nat × Nat) :
    flmOuter a b blo bhi (count + 1) i j2len best =
      flmOuter a b blo bhi count (i + 1)
        (flmInner blo bhi i j2len (b2jIdxs b (a.getD i [])) (fun _ => 0) best).1
        (flmInner blo bhi i j2len (b2jIdxs b (a.getD i [])) (fun _ => 0) best).2 := rfl

theorem flmOuter_ok (a b : List Line) (alo blo bhi : Nat) :
    ∀ (count i : Nat) (j2len : Nat → Nat) (best : Nat × Nat × Nat),
      alo ≤ i →
      J2LenOK a b alo blo bhi i j2len →
      BestOK a b alo i blo bhi best →
      BestOK a b alo (i + count) blo bhi (flmOuter a b blo bhi count i j2len best) := by
  intro count
  induction count with
  | zero =>
      intro i j2len best _ _ hbest
      simpa using hbest
  | succ c ih =>
      intro i j2len best hai hj2 hbest
      rw [flmOuter_succ]
      have hjs : ∀ j ∈ b2jIdxs b (a.getD i []), j < b.length ∧ b.getD j [] = a.getD i [] :=
        fun j hj => mem_b2jIdxs b (a.getD i []) j hj
      have hzero : J2LenOK a b alo blo bhi (i + 1) (fun _ => 0) := by
        intro j hj
        exact absurd rfl hj
      have hstep := flmInner_ok a b alo blo bhi i hai j2len hj2
        (b2jIdxs b (a.getD i [])) (fun _ => 0) best hjs hzero
        (bestOK_mono a b alo blo bhi i (i + 1) (by omega) best hbest)
      have := ih (i + 1) _ _ (by omega) hstep.1 hstep.2
      have harith : i + 1 + c = i + (c + 1) := by omega
      rw [harith] at this
      exact this

theorem extendDownAux_succ (a b : List Line) (alo blo f besti bestj bestsize : Nat) :
    extendDownAux a b alo blo (f + 1) besti bestj bestsize =
      if alo < besti ∧ blo < bestj ∧ a.getD (besti - 1) [] == b.getD (bestj - 1) [] then
        extendDownAux a b alo blo f (besti - 1) (bestj - 1) (bestsize + 1)
      else (besti, bestj, bestsize) := rfl

theorem extendDownAux_ok (a b : List Line) (alo blo ahi bhi : Nat) :
    ∀ (fuel besti bestj bestsize : Nat),
      BestOK a b alo ahi blo bhi (besti, bestj, bestsize) →
      BestOK a b alo ahi blo bhi (extendDownAux a b alo blo fuel besti bestj bestsize) := by
  intro fuel
  induction fuel with
  | zero => intro besti bestj bestsize h; exact h
  | succ f ih =>
      intro besti bestj bestsize h
      rw [extendDownAux_succ]
      by_cases hg : alo < besti ∧ blo < bestj ∧
          a.getD (besti - 1) [] == b.getD (bestj - 1) []
      · rw [if_pos hg]
        apply ih
        have h1 : alo ≤ besti := h.1
        have h2 : blo ≤ bestj := h.2.1
        have h3 : besti + bestsize ≤ ahi := h.2.2.1
        have h4 : bestj + bestsize ≤ bhi := h.2.2.2.1
        have hm : MatchAt a b besti bestj bestsize := h.2.2.2.2
        rcases hg with ⟨hg1, hg2, hg3⟩
        refine ⟨?_, ?_, ?_, ?_, ?_⟩
        · show alo ≤ besti - 1
          omega
        · show blo ≤ bestj - 1
          omega
        · show besti - 1 + (bestsize + 1) ≤ ahi
          omega
        · show bestj - 1 + (bestsize + 1) ≤ bhi
          omega
        · exact matchAt_extend_down a b besti bestj bestsize (by omega) (by omega) hm
            (beq_iff_eq.mp hg3)
      · rw [if_neg hg]
        exact h

theorem extendUpAux_succ (a b : List Line) (ahi bhi f besti bestj bestsize : Nat) :
    extendUpAux a b ahi bhi (f + 1) besti bestj bestsize =
      if besti + bestsize < ahi ∧ bestj + bestsize < bhi ∧
          a.getD (besti + bestsize) [] == b.getD (bestj + bestsize) [] then
        extendUpAux a b ahi bhi f besti bestj (bestsize + 1)
      else (besti, bestj, bestsize) := rfl

theorem extendUpAux_ok (a b : List Line) (alo blo ahi bhi : Nat) :
    ∀ (fuel besti bestj bestsize : Nat),
      BestOK a b alo ahi blo bhi (besti, bestj, bestsize) →
      BestOK a b alo ahi blo bhi (extendUpAux a b ahi bhi fuel besti bestj bestsize) := by
  intro fuel
  induction fuel with
  | zero => intro besti bestj bestsize h; exact h
  | succ f ih =>
      intro besti bestj bestsize h
      rw [extendUpAux_succ]
      by_cases hg : besti + bestsize < ahi ∧ bestj + bestsize < bhi ∧
          a.getD (besti + bestsize) [] == b.getD (bestj + bestsize) []
      · rw [if_pos hg]
        apply ih
        have h1 : alo ≤ besti := h.1
        have h2 : blo ≤ bestj := h.2.1
        have h3 : besti + bestsize ≤ ahi := h.2.2.1
        have h4 : bestj + bestsize ≤ bhi := h.2.2.2.1
        have hm : MatchAt a b besti bestj bestsize := h.2.2.2.2
        rcases hg with ⟨hg1, hg2, hg3⟩
        refine ⟨h1, h2, ?_, ?_, ?_⟩
        · show besti + (bestsize + 1) ≤ ahi
          omega
        · show bestj + (bestsize + 1) ≤ bhi
          omega
        · exact matchAt_extend_up a b besti bestj bestsize hm (beq_iff_eq.mp hg3)
      · rw [if_neg hg]
        exact h

theorem find_longest_match_ok (a b : List Line) (alo ahi blo bhi : Nat)
    (h1 : alo ≤ ahi) (h2 : blo ≤ bhi) :
    BestOK a b alo ahi blo bhi (find_longest_match a b alo ahi blo bhi) := by
  unfold find_longest_match
  have hinit : BestOK a b alo alo blo bhi (alo, blo, 0) := by
    refine ⟨Nat.le_refl _, Nat.le_refl _, ?_, ?_, matchAt_zero a b alo blo⟩
    · show alo + 0 ≤ alo
      omega
    · show blo + 0 ≤ bhi
      omega
  have hz : J2LenOK a b alo blo bhi alo (fun _ => 0) := fun j hj => absurd rfl hj
  have houter := flmOuter_ok a b alo blo bhi (ahi - alo) alo (fun _ => 0) (alo, blo, 0)
    (Nat.le_refl _) hz hinit
  rw [Nat.add_sub_cancel' h1] at houter
  have hdown := extendDownAux_ok a b alo blo ahi bhi
    (flmOuter a b blo bhi (ahi - alo) alo (fun _ => 0) (alo, blo, 0)).1
    (flmOuter a b blo bhi (ahi - alo) alo (fun _ => 0) (alo, blo, 0)).1
    (flmOuter a b blo bhi (ahi - alo) alo (fun _ => 0) (alo, blo, 0)).2.1
    (flmOuter a b blo bhi (ahi - alo) alo (fun _ => 0) (alo, blo, 0)).2.2
    houter
  exact extendUpAux_ok a b alo blo ahi bhi _ _ _ _ hdown

/-! ### C2 layer E: matching blocks -/

theorem matchAt_merge (a b : List Line) (i j k1 k2 : Nat)
    (h1 : MatchAt a b i j k1) (h2 : MatchAt a b (i + k1) (j + k1) k2) :
    MatchAt a b i j (k1 + k2) := by
  intro t ht
  by_cases htk : t < k1
  · exact h1 t htk
  · have e1 : i + t = i + k1 + (t - k1) := by omega
    have e2 : j + t = j + k1 + (t - k1) := by omega
    rw [e1, e2]
    exact h2 (t - k1) (by omega)

theorem blocksChain_mono (a b : List Line) (blocks : List (Nat × Nat × Nat))
    (i j i2 j2 : Nat) (hi : i2 ≤ i) (hj : j2 ≤ j) (h : BlocksChain a b i j blocks) :
    BlocksChain a b i2 j2 blocks := by
  cases blocks with
  | nil => trivial
  | cons blk rest =>
      rcases h with ⟨h1, h2, h3, h4⟩
      exact ⟨by omega, by omega, h3, h4⟩

theorem blocksChain_append (a b : List Line) :
    ∀ (l1 : List (Nat × Nat × Nat)) (l2 : List (Nat × Nat × Nat)) (i j m1 m2 : Nat),
      BlocksChain a b i j l1 → BlocksLE m1 m2 l1 → i ≤ m1 → j ≤ m2 →
      BlocksChain a b m1 m2 l2 →
      BlocksChain a b i j (l1 ++ l2) := by
  intro l1
  induction l1 with
  | nil =>
      intro l2 i j m1 m2 _ _ hi hj h2
      exact blocksChain_mono a b l2 m1 m2 i j hi hj h2
  | cons blk rest ih =>
      intro l2 i j m1 m2 h1 hle hi hj h2
      rcases h1 with ⟨ha1, ha2, ha3, ha4⟩
      refine ⟨ha1, ha2, ha3, ?_⟩
      exact ih l2 _ _ m1 m2 ha4 (fun x hx => hle x (List.mem_cons_of_mem _ hx))
        (hle blk (List.mem_cons_self _ _)).1 (hle blk (List.mem_cons_self _ _)).2 h2

theorem matchingBlocksFuel_succ (a b : List Line) (f alo ahi blo bhi : Nat) :
    matchingBlocksFuel a b (f + 1) alo ahi blo bhi =
      (if (find_longest_match a b alo ahi blo bhi).2.2 = 0 then []
       else
        (if alo < (find_longest_match a b alo ahi blo bhi).1 &&
            blo < (find_longest_match a b alo ahi blo bhi).2.1 then
          matchingBlocksFuel a b f alo (find_longest_match a b alo ahi blo bhi).1 blo
            (find_longest_match a b alo ahi blo bhi).2.1
         else []) ++
        [find_longest_match a b alo ahi blo bhi] ++
        (if (find_longest_match a b alo ahi blo bhi).1 +
              (find_longest_match a b alo ahi blo bhi).2.2 < ahi &&
            (find_longest_match a b alo ahi blo bhi).2.1 +
              (find_longest_match a b alo ahi blo bhi).2.2 < bhi then
          matchingBlocksFuel a b f
            ((find_longest_match a b alo ahi blo bhi).1 +
              (find_longest_match a b alo ahi blo bhi).2.2) ahi
            ((find_longest_match a b alo ahi blo bhi).2.1 +
              (find_longest_match a b alo ahi blo bhi).2.2) bhi
         else [])) := rfl

theorem matchingBlocksFuel_ok (a b : List Line) :
    ∀ (fuel alo ahi blo bhi : Nat),
      ahi - alo + (bhi - blo) < fuel → alo ≤ ahi → blo ≤ bhi →
      BlocksChain a b alo blo (matchingBlocksFuel a b fuel alo ahi blo bhi) ∧
      BlocksLE ahi bhi (matchingBlocksFuel a b fuel alo ahi blo bhi) := by
  intro fuel
  induction fuel with
  | zero => intro alo ahi blo bhi h _ _; omega
  | succ f ih =>
      intro alo ahi blo bhi hf ha hb
      rw [matchingBlocksFuel_succ]
      have hm := find_longest_match_ok a b alo ahi blo bhi ha hb
      have hm1 : alo ≤ (find_longest_match a b alo ahi blo bhi).1 := hm.1
      have hm2 : blo ≤ (find_longest_match a b alo ahi blo bhi).2.1 := hm.2.1
      have hm3 : (find_longest_match a b alo ahi blo bhi).1 +
          (find_longest_match a b alo ahi blo bhi).2.2 ≤ ahi := hm.2.2.1
      have hm4 : (find_longest_match a b alo ahi blo bhi).2.1 +
          (find_longest_match a b alo ahi blo bhi).2.2 ≤ bhi := hm.2.2.2.1
      have hm5 : MatchAt a b (find_longest_match a b alo ahi blo bhi).1
          (find_longest_match a b alo ahi blo bhi).2.1
          (find_longest_match a b alo ahi blo bhi).2.2 := hm.2.2.2.2
      by_cases hk : (find_longest_match a b alo ahi blo bhi).2.2 = 0
      · rw [if_pos hk]
        exact ⟨trivial, fun blk hblk => absurd hblk (List.not_mem_nil _)⟩
      · rw [if_neg hk]
        have hleft : BlocksChain a b alo blo
            (if alo < (find_longest_match a b alo ahi blo bhi).1 &&
                blo < (find_longest_match a b alo ahi blo bhi).2.1 then
              matchingBlocksFuel a b f alo (find_longest_match a b alo ahi blo bhi).1 blo
                (find_longest_match a b alo ahi blo bhi).2.1
             else []) ∧
            BlocksLE (find_longest_match a b alo ahi blo bhi).1
              (find_longest_match a b alo ahi blo bhi).2.1
            (if alo < (find_longest_match a b alo ahi blo bhi).1 &&
                blo < (find_longest_match a b alo ahi blo bhi).2.1 then
              matchingBlocksFuel a b f alo (find_longest_match a b alo ahi blo bhi).1 blo
                (find_longest_match a b alo ahi blo bhi).2.1
             else []) := by
          by_cases hc : alo < (find_longest_match a b alo ahi blo bhi).1 &&
              blo < (find_longest_match a b alo ahi blo bhi).2.1
          · rw [if_pos hc]
            simp only [Bool.and_eq_true, decide_eq_true_eq] at hc
            exact ih alo (find_longest_match a b alo ahi blo bhi).1 blo
              (find_longest_match a b alo ahi blo bhi).2.1 (by omega) (by omega) (by omega)
          · rw [if_neg hc]
            exact ⟨trivial, fun blk hblk => absurd hblk (List.not_mem_nil _)⟩
        have hright : BlocksChain a b
            ((find_longest_match a b alo ahi blo bhi).1 +
              (find_longest_match a b alo ahi blo bhi).2.2)
            ((find_longest_match a b alo ahi blo bhi).2.1 +
              (find_longest_match a b alo ahi blo bhi).2.2)
            (if (find_longest_match a b alo ahi blo bhi).1 +
                  (find_longest_match a b alo ahi blo bhi).2.2 < ahi &&
                (find_longest_match a b alo ahi blo bhi).2.1 +
                  (find_longest_match a b alo ahi blo bhi).2.2 < bhi then
              matchingBlocksFuel a b f
                ((find_longest_match a b alo ahi blo bhi).1 +
                  (find_longest_match a b alo ahi blo bhi).2.2) ahi
                ((find_longest_match a b alo ahi blo bhi).2.1 +
                  (find_longest_match a b alo ahi blo bhi).2.2) bhi
             else []) ∧
            BlocksLE ahi bhi
            (if (find_longest_match a b alo ahi blo bhi).1 +
                  (find_longest_match a b alo ahi blo bhi).2.2 < ahi &&
                (find_longest_match a b alo ahi blo bhi).2.1 +
                  (find_longest_match a b alo ahi blo bhi).2.2 < bhi then
              matchingBlocksFuel a b f
                ((find_longest_match a b alo ahi blo bhi).1 +
                  (find_longest_match a b alo ahi blo bhi).2.2) ahi
                ((find_longest_match a b alo ahi blo bhi).2.1 +
                  (find_longest_match a b alo ahi blo bhi).2.2) bhi
             else []) := by
          by_cases hc : (find_longest_match a b alo ahi blo bhi).1 +
                (find_longest_match a b alo ahi blo bhi).2.2 < ahi &&
              (find_longest_match a b alo ahi blo bhi).2.1 +
                (find_longest_match a b alo ahi blo bhi).2.2 < bhi
          · rw [if_pos hc]
            simp only [Bool.and_eq_true, decide_eq_true_eq] at hc
            exact ih _ ahi _ bhi (by omega) (by omega) (by omega)
          · rw [if_neg hc]
            exact ⟨trivial, fun blk hblk => absurd hblk (List.not_mem_nil _)⟩
        constructor
        · rw [List.append_assoc]
          apply blocksChain_append a b _ _ alo blo
            (find_longest_match a b alo ahi blo bhi).1
            (find_longest_match a b alo ahi blo bhi).2.1 hleft.1 hleft.2 (by omega) (by omega)
          refine ⟨Nat.le_refl _, Nat.le_refl _, hm5, ?_⟩
          exact hright.1
        · intro blk hblk
          rcases List.mem_append.mp hblk with hblk | hblk
          · rcases List.mem_append.mp hblk with hblk | hblk
            · have := hleft.2 blk hblk
              omega
            · simp only [List.mem_singleton] at hblk
              subst hblk
              omega
          · exact hright.2 blk hblk

theorem mergeBlocksAux_nil (i1 j1 k1 : Nat) :
    mergeBlocksAux (i1, j1, k1) [] = if k1 ≠ 0 then [(i1, j1, k1)] else [] := rfl

theorem mergeBlocksAux_cons (i1 j1 k1 i2 j2 k2 : Nat) (rest : List (Nat × Nat × Nat)) :
    mergeBlocksAux (i1, j1, k1) ((i2, j2, k2) :: rest) =
      if i1 + k1 = i2 ∧ j1 + k1 = j2 then mergeBlocksAux (i1, j1, k1 + k2) rest
      else (if k1 ≠ 0 then [(i1, j1, k1)] else []) ++ mergeBlocksAux (i2, j2, k2) rest := rfl

theorem mergeBlocksAux_ok (a b : List Line) (ahi bhi : Nat) :
    ∀ (blocks : List (Nat × Nat × Nat)) (i1 j1 k1 i0 j0 : Nat),
      i0 ≤ i1 → j0 ≤ j1 → MatchAt a b i1 j1 k1 →
      i1 + k1 ≤ ahi → j1 + k1 ≤ bhi →
      BlocksChain a b (i1 + k1) (j1 + k1) blocks → BlocksLE ahi bhi blocks →
      BlocksChain a b i0 j0 (mergeBlocksAux (i1, j1, k1) blocks) ∧
      BlocksLE ahi bhi (mergeBlocksAux (i1, j1, k1) blocks) := by
  intro blocks
  induction blocks with
  | nil =>
      intro i1 j1 k1 i0 j0 h1 h2 hm h3 h4 _ _
      rw [mergeBlocksAux_nil]
      by_cases hk : k1 ≠ 0
      · rw [if_pos hk]
        constructor
        · exact ⟨h1, h2, hm, trivial⟩
        · intro blk hblk
          simp only [List.mem_singleton] at hblk
          subst hblk
          exact ⟨h3, h4⟩
      · rw [if_neg hk]
        exact ⟨trivial, fun blk hblk => absurd hblk (List.not_mem_nil _)⟩
  | cons head rest ih =>
      rcases head with ⟨i2, j2, k2⟩
      intro i1 j1 k1 i0 j0 h1 h2 hm h3 h4 hchain hle
      have hc1 : i1 + k1 ≤ i2 := hchain.1
      have hc2 : j1 + k1 ≤ j2 := hchain.2.1
      have hcm : MatchAt a b i2 j2 k2 := hchain.2.2.1
      have hcrest : BlocksChain a b (i2 + k2) (j2 + k2) rest := hchain.2.2.2
      have hlehead := hle (i2, j2, k2) (List.mem_cons_self _ _)
      have hle2 : i2 + k2 ≤ ahi := hlehead.1
      have hle3 : j2 + k2 ≤ bhi := hlehead.2
      have hlerest : BlocksLE ahi bhi rest := fun x hx => hle x (List.mem_cons_of_mem _ hx)
      rw [mergeBlocksAux_cons]
      by_cases hadj : i1 + k1 = i2 ∧ j1 + k1 = j2
      · rw [if_pos hadj]
        have hmerged : MatchAt a b i1 j1 (k1 + k2) := by
          apply matchAt_merge a b i1 j1 k1 k2 hm
          rw [hadj.1, hadj.2]
          exact hcm
        apply ih i1 j1 (k1 + k2) i0 j0 h1 h2 hmerged (by omega) (by omega)
        · have e1 : i1 + (k1 + k2) = i2 + k2 := by omega
          have e2 : j1 + (k1 + k2) = j2 + k2 := by omega
          rw [e1, e2]
          exact hcrest
        · exact hlerest
      · rw [if_neg hadj]
        have hrec := ih i2 j2 k2 (i1 + k1) (j1 + k1) hc1 hc2 hcm hle2 hle3 hcrest hlerest
        by_cases hk : k1 ≠ 0
        · rw [if_pos hk]
          constructor
          · exact ⟨h1, h2, hm, hrec.1⟩
          · intro blk hblk
            rcases List.mem_append.mp hblk with hblk | hblk
            · simp only [List.mem_singleton] at hblk
              subst hblk
              exact ⟨h3, h4⟩
            · exact hrec.2 blk hblk
        · rw [if_neg hk]
          simp only [List.nil_append]
          refine ⟨?_, hrec.2⟩
          exact blocksChain_mono a b _ (i1 + k1) (j1 + k1) i0 j0 (by omega) (by omega) hrec.1

theorem get_matching_blocks_ok (a b : List Line) :
    BlocksChain a b 0 0 (get_matching_blocks a b) ∧
    BlocksLE a.length b.length (get_matching_blocks a b) ∧
    (get_matching_blocks a b).getLast? = some (a.length, b.length, 0) := by
  unfold get_matching_blocks
  have hmb := matchingBlocksFuel_ok a b (a.length + b.length + 1) 0 a.length 0 b.length
    (by omega) (by omega) (by omega)
  have hmerge := mergeBlocksAux_ok a b a.length b.length
    (matchingBlocksFuel a b (a.length + b.length + 1) 0 a.length 0 b.length)
    0 0 0 0 0 (Nat.le_refl _) (Nat.le_refl _) (matchAt_zero a b 0 0) (by omega) (by omega)
    hmb.1 hmb.2
  refine ⟨?_, ?_, ?_⟩
  · apply blocksChain_append a b _ _ 0 0 a.length b.length hmerge.1 hmerge.2 (by omega)
      (by omega)
    refine ⟨Nat.le_refl _, Nat.le_refl _, matchAt_zero a b _ _, trivial⟩
  · intro blk hblk
    rcases List.mem_append.mp hblk with hblk | hblk
    · exact hmerge.2 blk hblk
    · simp only [List.mem_singleton] at hblk
      subst hblk
      constructor
      · show a.length + 0 ≤ a.length
        omega
      · show b.length + 0 ≤ b.length
        omega
  · rw [List.getLast?_concat]

/-! ### C2 layer F: opcodes -/

theorem opOK_mk (a b : List Line) (tag : DTag) (i1 i2 j1 j2 : Nat)
    (h1 : i1 ≤ i2) (h2 : j1 ≤ j2) (h3 : i2 ≤ a.length) (h4 : j2 ≤ b.length)
    (h5 : match tag with
      | .equal => i2 - i1 = j2 - j1 ∧ i1 < i2 ∧ sliceLines a i1 i2 = sliceLines b j1 j2
      | .replace => i1 < i2 ∧ j1 < j2
      | .delete => i1 < i2 ∧ j1 = j2
      | .insert => i1 = i2 ∧ j1 < j2) :
    OpOK a b ⟨tag, i1, i2, j1, j2⟩ := ⟨h1, h2, h3, h4, h5⟩

theorem sliceLines_eq_of_matchAt (a b : List Line) (i j k : Nat)
    (hm : MatchAt a b i j k) (ha : i + k ≤ a.length) (hb2 : j + k ≤ b.length) :
    sliceLines a i (i + k) = sliceLines b j (j + k) := by
  unfold sliceLines
  apply List.ext_getElem
  · simp only [List.length_take, List.length_drop]
    omega
  · intro n h1 h2
    simp only [List.getElem_take, List.getElem_drop]
    have hn : n < k := by
      simp only [List.length_take, List.length_drop] at h1
      omega
    have hgd := hm n hn
    rw [List.getD_eq_getElem?_getD, List.getD_eq_getElem?_getD] at hgd
    rw [List.getElem?_eq_getElem (by omega), List.getElem?_eq_getElem (by omega)] at hgd
    simpa using hgd

theorem opsSeg_append (a b : List Line) :
    ∀ (l1 : List Opcode) (l2 : List Opcode) (i j m1 m2 e1 e2 : Nat),
      OpsSeg a b i j m1 m2 l1 → OpsSeg a b m1 m2 e1 e2 l2 →
      OpsSeg a b i j e1 e2 (l1 ++ l2) := by
  intro l1
  induction l1 with
  | nil =>
      intro l2 i j m1 m2 e1 e2 h1 h2
      rcases h1 with ⟨rfl, rfl⟩
      simpa using h2
  | cons c rest ih =>
      intro l2 i j m1 m2 e1 e2 h1 h2
      rcases h1 with ⟨hc1, hc2, hc3, hc4⟩
      exact ⟨hc1, hc2, hc3, ih l2 _ _ m1 m2 e1 e2 hc4 h2⟩

theorem opcodesLoop_cons (i j ai bj size : Nat) (rest : List (Nat × Nat × Nat)) :
    opcodesLoop i j ((ai, bj, size) :: rest) =
      (if i < ai ∧ j < bj then [⟨.replace, i, ai, j, bj⟩]
       else if i < ai then [⟨.delete, i, ai, j, bj⟩]
       else if j < bj then [⟨.insert, i, ai, j, bj⟩]
       else []) ++
      (if size ≠ 0 then [⟨.equal, ai, ai + size, bj, bj + size⟩] else []) ++
      opcodesLoop (ai + size) (bj + size) rest := rfl

theorem opcodesLoop_seg (a b : List Line) :
    ∀ (blocks : List (Nat × Nat × Nat)) (i j : Nat),
      BlocksChain a b i j blocks → BlocksLE a.length b.length blocks →
      blocks.getLast? = some (a.length, b.length, 0) →
      OpsSeg a b i j a.length b.length (opcodesLoop i j blocks) := by
  intro blocks
  induction blocks with
  | nil =>
      intro i j _ _ hlast
      simp at hlast
  | cons head rest ih =>
      rcases head with ⟨ai, bj, size⟩
      intro i j hchain hle hlast
      have hc1 : i ≤ ai := hchain.1
      have hc2 : j ≤ bj := hchain.2.1
      have hcm : MatchAt a b ai bj size := hchain.2.2.1
      have hcrest : BlocksChain a b (ai + size) (bj + size) rest := hchain.2.2.2
      have hlehead := hle (ai, bj, size) (List.mem_cons_self _ _)
      have hla : ai + size ≤ a.length := hlehead.1
      have hlb : bj + size ≤ b.length := hlehead.2
      rw [opcodesLoop_cons]
      have hgap : OpsSeg a b i j ai bj
          (if i < ai ∧ j < bj then [⟨.replace, i, ai, j, bj⟩]
           else if i < ai then [⟨.delete, i, ai, j, bj⟩]
           else if j < bj then [⟨.insert, i, ai, j, bj⟩]
           else []) := by
        by_cases h1 : i < ai ∧ j < bj
        · rw [if_pos h1]
          exact ⟨rfl, rfl,
            opOK_mk a b .replace i ai j bj (by omega) (by omega) (by omega) (by omega)
              ⟨h1.1, h1.2⟩, rfl, rfl⟩
        · rw [if_neg h1]
          by_cases h2 : i < ai
          · rw [if_pos h2]
            have hjb : j = bj := by omega
            exact ⟨rfl, rfl,
              opOK_mk a b .delete i ai j bj (by omega) (by omega) (by omega) (by omega)
                ⟨h2, hjb⟩, rfl, rfl⟩
          · rw [if_neg h2]
            have hia : i = ai := by omega
            by_cases h3 : j < bj
            · rw [if_pos h3]
              exact ⟨rfl, rfl,
                opOK_mk a b .insert i ai j bj (by omega) (by omega) (by omega) (by omega)
                  ⟨hia, h3⟩, rfl, rfl⟩
            · rw [if_neg h3]
              exact ⟨hia, by omega⟩
      have hequal : OpsSeg a b ai bj (ai + size) (bj + size)
          (if size ≠ 0 then [⟨.equal, ai, ai + size, bj, bj + size⟩] else []) := by
        by_cases hsz : size ≠ 0
        · rw [if_pos hsz]
          refine ⟨rfl, rfl, ?_, rfl, rfl⟩
          refine opOK_mk a b .equal ai (ai + size) bj (bj + size) (by omega) (by omega)
            (by omega) (by omega) ⟨by omega, by omega, ?_⟩
          exact sliceLines_eq_of_matchAt a b ai bj size hcm hla hlb
        · rw [if_neg hsz]
          push_neg at hsz
          subst hsz
          exact ⟨by omega, by omega⟩
      have hge : OpsSeg a b i j (ai + size) (bj + size)
          ((if i < ai ∧ j < bj then [⟨.replace, i, ai, j, bj⟩]
            else if i < ai then [⟨.delete, i, ai, j, bj⟩]
            else if j < bj then [⟨.insert, i, ai, j, bj⟩]
            else []) ++
           (if size ≠ 0 then [⟨.equal, ai, ai + size, bj, bj + size⟩] else [])) :=
        opsSeg_append a b _ _ i j ai bj _ _ hgap hequal
      cases rest with
      | nil =>
          simp only [List.getLast?_singleton, Option.some.injEq] at hlast
          have hai : ai = a.length := congrArg Prod.fst hlast
          have hbj : bj = b.length := congrArg Prod.fst (congrArg Prod.snd hlast)
          have hsz : size = 0 := congrArg (fun p => p.2.2) hlast
          apply opsSeg_append a b _ _ i j (ai + size) (bj + size) _ _ hge
          show OpsSeg a b (ai + size) (bj + size) a.length b.length []
          constructor
          · omega
          · omega
      | cons next rest2 =>
          apply opsSeg_append a b _ _ i j (ai + size) (bj + size) _ _ hge
          apply ih (ai + size) (bj + size) hcrest
            (fun x hx => hle x (List.mem_cons_of_mem _ hx))
          rw [← hlast, List.getLast?_cons_cons]

theorem get_opcodes_seg (a b : List Line) :
    OpsSeg a b 0 0 a.length b.length (get_opcodes a b) := by
  unfold get_opcodes
  obtain ⟨hc, hle, hlast⟩ := get_matching_blocks_ok a b
  exact opcodesLoop_seg a b _ 0 0 hc hle hlast

/-! ### Slice arithmetic -/

theorem sliceLines_append (a : List Line) (i k m : Nat) (h1 : i ≤ k) (h2 : k ≤ m) :
    sliceLines a i m = sliceLines a i k ++ sliceLines a k m := by
  unfold sliceLines
  have hm : m - i = (k - i) + (m - k) := by omega
  rw [hm, List.take_add, List.drop_drop]
  have hk : i + (k - i) = k := by omega
  rw [hk]

theorem drop_eq_slice_append (a : List Line) (i m : Nat) (h : i ≤ m) :
    a.drop i = sliceLines a i m ++ a.drop m := by
  unfold sliceLines
  conv_lhs => rw [← List.take_append_drop (m - i) (a.drop i)]
  rw [List.drop_drop]
  have hk : i + (m - i) = m := by omega
  rw [hk]

theorem sliceLines_drop_take (a : List Line) (i1 i2 p q : Nat) (hq : q ≤ i2 - i1) :
    sliceLines a (i1 + p) (i1 + q) = ((sliceLines a i1 i2).drop p).take (q - p) := by
  unfold sliceLines
  rw [List.drop_take, List.take_take, List.drop_drop]
  have h1 : i1 + q - (i1 + p) = q - p := by omega
  have h2 : min (q - p) (i2 - i1 - p) = q - p := by omega
  rw [h1, h2]

theorem sliceLines_eq_sub (a b : List Line) (i1 i2 j1 j2 : Nat)
    (h : sliceLines a i1 i2 = sliceLines b j1 j2) (hw : i2 - i1 = j2 - j1)
    (p q : Nat) (hq : q ≤ i2 - i1) :
    sliceLines a (i1 + p) (i1 + q) = sliceLines b (j1 + p) (j1 + q) := by
  rw [sliceLines_drop_take a i1 i2 p q hq, sliceLines_drop_take b j1 j2 p q (by omega), h]

/-! ### Structural facts about opcode runs -/

theorem opsSeg_mono (a b : List Line) :
    ∀ (g : List Opcode) (i j ea eb : Nat), OpsSeg a b i j ea eb g → i ≤ ea ∧ j ≤ eb := by
  intro g
  induction g with
  | nil =>
      intro i j ea eb h
      exact ⟨h.1.le, h.2.le⟩
  | cons c rest ih =>
      intro i j ea eb h
      obtain ⟨h1, h2, hok, hrest⟩ := h
      have hr := ih c.i2 c.j2 ea eb hrest
      have hle1 : c.i1 ≤ c.i2 := hok.1
      have hle2 : c.j1 ≤ c.j2 := hok.2.1
      omega

theorem opsSeg_end_le (a b : List Line) :
    ∀ (g : List Opcode) (i j ea eb : Nat), OpsSeg a b i j ea eb g →
      i ≤ a.length → j ≤ b.length → ea ≤ a.length ∧ eb ≤ b.length := by
  intro g
  induction g with
  | nil =>
      intro i j ea eb h hi hj
      exact ⟨h.1 ▸ hi, h.2 ▸ hj⟩
  | cons c rest ih =>
      intro i j ea eb h _ _
      obtain ⟨_, _, hok, hrest⟩ := h
      exact ih c.i2 c.j2 ea eb hrest hok.2.2.1 hok.2.2.2.1

theorem opsSeg_last (a b : List Line) :
    ∀ (g : List Opcode) (c : Opcode) (i j ea eb : Nat),
      OpsSeg a b i j ea eb g → g.getLast? = some c →
      OpOK a b c ∧ c.i2 = ea ∧ c.j2 = eb ∧ OpsSeg a b i j c.i1 c.j1 g.dropLast := by
  intro g
  induction g with
  | nil =>
      intro c i j ea eb _ hlast
      simp at hlast
  | cons c0 rest ih =>
      intro c i j ea eb h hlast
      obtain ⟨h1, h2, hok, hrest⟩ := h
      cases rest with
      | nil =>
          simp only [List.getLast?_singleton, Option.some.injEq] at hlast
          subst hlast
          exact ⟨hok, hrest.1, hrest.2, ⟨h1.symm, h2.symm⟩⟩
      | cons c1 rest2 =>
          rw [List.getLast?_cons_cons] at hlast
          obtain ⟨hok2, he1, he2, hseg2⟩ := ih c c0.i2 c0.j2 ea eb hrest hlast
          exact ⟨hok2, he1, he2, ⟨h1, h2, hok, hseg2⟩⟩

theorem groupLoop_nil_eq (n : Nat) (group : List Opcode) :
    groupLoop n group [] =
      if group ≠ [] ∧ ¬(group.length = 1 ∧ group.head?.map Opcode.tag = some .equal)
      then [group] else [] := rfl

theorem groupLoop_cons_eq (n : Nat) (group : List Opcode) (c : Opcode) (rest : List Opcode) :
    groupLoop n group (c :: rest) =
      if c.tag = .equal ∧ 2 * n < c.i2 - c.i1 then
        (group ++ [{ c with i2 := min c.i2 (c.i1 + n), j2 := min c.j2 (c.j1 + n) }]) ::
          groupLoop n [{ c with i1 := max c.i1 (c.i2 - n), j1 := max c.j1 (c.j2 - n) }] rest
      else groupLoop n (group ++ [c]) rest := rfl

theorem groupsSpec_prepend_gap (a b : List Line) :
    ∀ (gs : List (List Opcode)) (i j sa sb : Nat),
      GroupsSpec a b sa sb gs →
      i ≤ sa → j ≤ sb → sa - i = sb - j →
      sliceLines a i sa = sliceLines b j sb →
      sa ≤ a.length → sb ≤ b.length →
      GroupsSpec a b i j gs := by
  intro gs
  cases gs with
  | nil =>
      intro i j sa sb h hi hj hw hslice hla hlb
      refine ⟨?_, by omega, by omega⟩
      rw [drop_eq_slice_append a i sa hi, drop_eq_slice_append b j sb hj, hslice, h.1]
  | cons g rest =>
      intro i j sa sb h hi hj hw hslice hla hlb
      obtain ⟨sa2, sb2, ea2, eb2, h1, h2, h3, h4, h5, h6, h7, h8, h9⟩ := h
      refine ⟨sa2, sb2, ea2, eb2, by omega, by omega, by omega, h4, h5, ?_, h7, h8, h9⟩
      rw [sliceLines_append a i sa sa2 hi h1, sliceLines_append b j sb sb2 hj h2, hslice, h6]

theorem groupLoop_spec (a b : List Line) (n : Nat) (hn : 0 < n) :
    ∀ (codes group : List Opcode) (i j ea eb sa sb : Nat),
      OpsSeg a b i j ea eb codes →
      OpsSeg a b sa sb i j group →
      a.drop ea = b.drop eb → ea ≤ a.length → eb ≤ b.length →
      GroupsSpec a b sa sb (groupLoop n group codes) := by
  intro codes
  induction codes with
  | nil =>
      intro group i j ea eb sa sb hcodes hgroup hdrop hea heb
      have hie : i = ea := hcodes.1
      have hje : j = eb := hcodes.2
      subst hie; subst hje
      rw [groupLoop_nil_eq]
      by_cases hcond : group ≠ [] ∧
          ¬(group.length = 1 ∧ group.head?.map Opcode.tag = some .equal)
      · rw [if_pos hcond]
        have hmono := opsSeg_mono a b group sa sb i j hgroup
        refine ⟨sa, sb, i, j, Nat.le_refl sa, Nat.le_refl sb, by omega, by omega, by omega,
          ?_, hcond.1, hgroup, ⟨hdrop, hea, heb⟩⟩
        simp [sliceLines]
      · rw [if_neg hcond]
        push_neg at hcond
        by_cases hg : group = []
        · subst hg
          have h1 : sa = i := hgroup.1
          have h2 : sb = j := hgroup.2
          subst h1; subst h2
          exact ⟨hdrop, hea, heb⟩
        · obtain ⟨hlen, htagm⟩ := hcond hg
          obtain ⟨c, rfl⟩ := List.length_eq_one.mp hlen
          have htag : c.tag = .equal := by
            simp only [List.head?_cons, Option.map_some] at htagm
            exact Option.some.inj htagm
          obtain ⟨h1, h2, hok, h3, h4⟩ := hgroup
          have hok5 := hok.2.2.2.2
          rw [htag] at hok5
          obtain ⟨hwid, hlt, hslice⟩ := hok5
          rw [h1, h2, h3, h4] at hslice
          have hb1 : c.i1 ≤ c.i2 := hok.1
          have hb2 : c.j1 ≤ c.j2 := hok.2.1
          have hia : c.i1 = sa := h1
          have hib : c.i2 = i := h3
          have hja : c.j1 = sb := h2
          have hjb : c.j2 = j := h4
          refine ⟨?_, by omega, by omega⟩
          rw [drop_eq_slice_append a sa i (by omega), drop_eq_slice_append b sb j (by omega),
            hslice, hdrop]
  | cons c rest ih =>
      intro group i j ea eb sa sb hcodes hgroup hdrop hea heb
      obtain ⟨ctag, ci1, ci2, cj1, cj2⟩ := c
      obtain ⟨hc1, hc2, hok, hrest⟩ := hcodes
      have hc1' : ci1 = i := hc1
      have hc2' : cj1 = j := hc2
      have hle1 : ci1 ≤ ci2 := hok.1
      have hle2 : cj1 ≤ cj2 := hok.2.1
      have hlea : ci2 ≤ a.length := hok.2.2.1
      have hleb : cj2 ≤ b.length := hok.2.2.2.1
      have hrest' : OpsSeg a b ci2 cj2 ea eb rest := hrest
      rw [groupLoop_cons_eq]
      by_cases hcut : (Opcode.mk ctag ci1 ci2 cj1 cj2).tag = .equal ∧
          2 * n < (Opcode.mk ctag ci1 ci2 cj1 cj2).i2 - (Opcode.mk ctag ci1 ci2 cj1 cj2).i1
      · rw [if_pos hcut]
        have htag : ctag = DTag.equal := hcut.1
        have hbig : 2 * n < ci2 - ci1 := hcut.2
        subst htag
        have hok5 : ci2 - ci1 = cj2 - cj1 ∧ ci1 < ci2 ∧
            sliceLines a ci1 ci2 = sliceLines b cj1 cj2 := hok.2.2.2.2
        obtain ⟨hwid, hlt, hslice⟩ := hok5
        have hgmono := opsSeg_mono a b group sa sb i j hgroup
        -- the emitted group, ending at (ci1 + n, cj1 + n)
        have hEndOK : OpOK a b ⟨DTag.equal, ci1, min ci2 (ci1 + n), cj1, min cj2 (cj1 + n)⟩ := by
          refine opOK_mk a b .equal ci1 (min ci2 (ci1 + n)) cj1 (min cj2 (cj1 + n))
            (by omega) (by omega) (by omega) (by omega) ⟨by omega, by omega, ?_⟩
          have hE1 : min ci2 (ci1 + n) = ci1 + n := by omega
          have hE2 : min cj2 (cj1 + n) = cj1 + n := by omega
          rw [hE1, hE2]
          have hsub := sliceLines_eq_sub a b ci1 ci2 cj1 cj2 hslice hwid 0 n (by omega)
          simpa using hsub
        have hEmit : OpsSeg a b sa sb (min ci2 (ci1 + n)) (min cj2 (cj1 + n))
            (group ++ [⟨DTag.equal, ci1, min ci2 (ci1 + n), cj1, min cj2 (cj1 + n)⟩]) := by
          refine opsSeg_append a b group _ sa sb i j _ _ hgroup ?_
          exact ⟨hc1, hc2, hEndOK, ⟨rfl, rfl⟩⟩
        -- the recursive tail, from the start of the trimmed tail opcode
        have hStartOK : OpOK a b ⟨DTag.equal, max ci1 (ci2 - n), ci2, max cj1 (cj2 - n), cj2⟩ := by
          refine opOK_mk a b .equal (max ci1 (ci2 - n)) ci2 (max cj1 (cj2 - n)) cj2
            (by omega) (by omega) (by omega) (by omega) ⟨by omega, by omega, ?_⟩
          have hS1 : max ci1 (ci2 - n) = ci2 - n := by omega
          have hS2 : max cj1 (cj2 - n) = cj2 - n := by omega
          rw [hS1, hS2]
          have hsub := sliceLines_eq_sub a b ci1 ci2 cj1 cj2 hslice hwid
            (ci2 - ci1 - n) (ci2 - ci1) (by omega)
          have e1 : ci1 + (ci2 - ci1 - n) = ci2 - n := by omega
          have e2 : ci1 + (ci2 - ci1) = ci2 := by omega
          have e3 : cj1 + (ci2 - ci1 - n) = cj2 - n := by omega
          have e4 : cj1 + (ci2 - ci1) = cj2 := by omega
          rw [e1, e2, e3, e4] at hsub
          exact hsub
        have hTail : OpsSeg a b (max ci1 (ci2 - n)) (max cj1 (cj2 - n)) ci2 cj2
            [⟨DTag.equal, max ci1 (ci2 - n), ci2, max cj1 (cj2 - n), cj2⟩] :=
          ⟨rfl, rfl, hStartOK, ⟨rfl, rfl⟩⟩
        have hrec := ih [⟨DTag.equal, max ci1 (ci2 - n), ci2, max cj1 (cj2 - n), cj2⟩]
          ci2 cj2 ea eb (max ci1 (ci2 - n)) (max cj1 (cj2 - n)) hrest' hTail hdrop hea heb
        have hmid : sliceLines a (min ci2 (ci1 + n)) (max ci1 (ci2 - n)) =
            sliceLines b (min cj2 (cj1 + n)) (max cj1 (cj2 - n)) := by
          have hE1 : min ci2 (ci1 + n) = ci1 + n := by omega
          have hE2 : min cj2 (cj1 + n) = cj1 + n := by omega
          have hS1 : max ci1 (ci2 - n) = ci2 - n := by omega
          have hS2 : max cj1 (cj2 - n) = cj2 - n := by omega
          rw [hE1, hE2, hS1, hS2]
          have hsub := sliceLines_eq_sub a b ci1 ci2 cj1 cj2 hslice hwid
            n (ci2 - ci1 - n) (by omega)
          have e1 : ci1 + (ci2 - ci1 - n) = ci2 - n := by omega
          have e3 : cj1 + (ci2 - ci1 - n) = cj2 - n := by omega
          rw [e1, e3] at hsub
          exact hsub
        have hrec2 := groupsSpec_prepend_gap a b _ (min ci2 (ci1 + n)) (min cj2 (cj1 + n))
          (max ci1 (ci2 - n)) (max cj1 (cj2 - n)) hrec (by omega) (by omega) (by omega)
          hmid (by omega) (by omega)
        refine ⟨sa, sb, min ci2 (ci1 + n), min cj2 (cj1 + n), Nat.le_refl sa, Nat.le_refl sb,
          by omega, by omega, by omega, ?_, by simp, hEmit, hrec2⟩
        simp [sliceLines]
      · rw [if_neg hcut]
        refine ih (group ++ [⟨ctag, ci1, ci2, cj1, cj2⟩]) ci2 cj2 ea eb sa sb hrest' ?_
          hdrop hea heb
        refine opsSeg_append a b group _ sa sb i j ci2 cj2 hgroup ?_
        exact ⟨hc1, hc2, hok, ⟨rfl, rfl⟩⟩

theorem trimFirst_spec (a b : List Line) (n : Nat) (hn : 0 < n) (c0 : Opcode)
    (crest : List Opcode) (ea eb : Nat)
    (hseg : OpsSeg a b 0 0 ea eb (c0 :: crest)) :
    ∃ sa sb, sa - 0 = sb - 0 ∧ sliceLines a 0 sa = sliceLines b 0 sb ∧
      sa ≤ a.length ∧ sb ≤ b.length ∧
      trimFirstOpcode n (c0 :: crest) ≠ [] ∧
      OpsSeg a b sa sb ea eb (trimFirstOpcode n (c0 :: crest)) := by
  obtain ⟨ctag, ci1, ci2, cj1, cj2⟩ := c0
  obtain ⟨hc1, hc2, hok, hrest⟩ := hseg
  have hc1' : ci1 = 0 := hc1
  have hc2' : cj1 = 0 := hc2
  subst hc1'; subst hc2'
  have hle1 : (0 : Nat) ≤ ci2 := hok.1
  have hle2 : (0 : Nat) ≤ cj2 := hok.2.1
  have hlea : ci2 ≤ a.length := hok.2.2.1
  have hleb : cj2 ≤ b.length := hok.2.2.2.1
  have hrest' : OpsSeg a b ci2 cj2 ea eb crest := hrest
  by_cases htag : (Opcode.mk ctag 0 ci2 0 cj2).tag = DTag.equal
  · have htag' : ctag = DTag.equal := htag
    subst htag'
    have hok5 : ci2 - 0 = cj2 - 0 ∧ 0 < ci2 ∧
        sliceLines a 0 ci2 = sliceLines b 0 cj2 := hok.2.2.2.2
    obtain ⟨hwid, hlt, hslice⟩ := hok5
    have hij : ci2 = cj2 := by omega
    subst hij
    have ht : trimFirstOpcode n (⟨DTag.equal, 0, ci2, 0, ci2⟩ :: crest) =
        ⟨DTag.equal, max 0 (ci2 - n), ci2, max 0 (ci2 - n), ci2⟩ :: crest := by
      simp [trimFirstOpcode]
    rw [ht]
    refine ⟨max 0 (ci2 - n), max 0 (ci2 - n), rfl, ?_, by omega, by omega, by simp, ?_⟩
    · have hsub := sliceLines_eq_sub a b 0 ci2 0 ci2 hslice rfl 0 (max 0 (ci2 - n)) (by omega)
      simpa using hsub
    · refine ⟨rfl, rfl, ?_, hrest'⟩
      refine opOK_mk a b .equal (max 0 (ci2 - n)) ci2 (max 0 (ci2 - n)) ci2
        (by omega) (by omega) (by omega) (by omega) ⟨by omega, by omega, ?_⟩
      have hsub := sliceLines_eq_sub a b 0 ci2 0 ci2 hslice rfl (max 0 (ci2 - n)) ci2 (by omega)
      simpa using hsub
  · have ht : trimFirstOpcode n (⟨ctag, 0, ci2, 0, cj2⟩ :: crest) =
        ⟨ctag, 0, ci2, 0, cj2⟩ :: crest := by
      simp [trimFirstOpcode, htag]
    rw [ht]
    exact ⟨0, 0, rfl, rfl, by omega, by omega, by simp, ⟨rfl, rfl, hok, hrest'⟩⟩

theorem trimLast_spec (a b : List Line) (n : Nat) (hn : 0 < n) (codes : List Opcode)
    (sa sb : Nat) (hne : codes ≠ [])
    (hseg : OpsSeg a b sa sb a.length b.length codes) :
    ∃ ea eb, a.drop ea = b.drop eb ∧ ea ≤ a.length ∧ eb ≤ b.length ∧
      OpsSeg a b sa sb ea eb (trimLastOpcode n codes) := by
  have hl : codes.getLast? = some (codes.getLast hne) := List.getLast?_eq_getLast codes hne
  obtain ⟨hokL, hl1, hl2, hfront⟩ := opsSeg_last a b codes (codes.getLast hne)
    sa sb a.length b.length hseg hl
  have ht0 : trimLastOpcode n codes =
      (if (codes.getLast hne).tag = DTag.equal then
        codes.dropLast ++ [{ codes.getLast hne with
          i2 := min (codes.getLast hne).i2 ((codes.getLast hne).i1 + n),
          j2 := min (codes.getLast hne).j2 ((codes.getLast hne).j1 + n) }]
      else codes) := by
    unfold trimLastOpcode
    rw [hl]
  generalize hcl : codes.getLast hne = cl at *
  obtain ⟨ltag, li1, li2, lj1, lj2⟩ := cl
  have hb1 : li1 ≤ li2 := hokL.1
  have hb2 : lj1 ≤ lj2 := hokL.2.1
  have hb3 : li2 ≤ a.length := hokL.2.2.1
  have hb4 : lj2 ≤ b.length := hokL.2.2.2.1
  have hl1' : li2 = a.length := hl1
  have hl2' : lj2 = b.length := hl2
  have hfront' : OpsSeg a b sa sb li1 lj1 codes.dropLast := hfront
  by_cases htag : (Opcode.mk ltag li1 li2 lj1 lj2).tag = DTag.equal
  · have htag' : ltag = DTag.equal := htag
    subst htag'
    have hok5 : li2 - li1 = lj2 - lj1 ∧ li1 < li2 ∧
        sliceLines a li1 li2 = sliceLines b lj1 lj2 := hokL.2.2.2.2
    obtain ⟨hwid, hlt, hslice⟩ := hok5
    rw [ht0, if_pos htag]
    refine ⟨min li2 (li1 + n), min lj2 (lj1 + n), ?_, by omega, by omega, ?_⟩
    · have hda : a.drop li2 = [] := by
        rw [hl1']; exact List.drop_length a
      have hdb : b.drop lj2 = [] := by
        rw [hl2']; exact List.drop_length b
      rw [drop_eq_slice_append a (min li2 (li1 + n)) li2 (by omega),
        drop_eq_slice_append b (min lj2 (lj1 + n)) lj2 (by omega), hda, hdb]
      have hsub := sliceLines_eq_sub a b li1 li2 lj1 lj2 hslice hwid
        (min (li2 - li1) n) (li2 - li1) (by omega)
      have e1 : li1 + min (li2 - li1) n = min li2 (li1 + n) := by omega
      have e2 : li1 + (li2 - li1) = li2 := by omega
      have e3 : lj1 + min (li2 - li1) n = min lj2 (lj1 + n) := by omega
      have e4 : lj1 + (li2 - li1) = lj2 := by omega
      rw [e1, e2, e3, e4] at hsub
      rw [hsub]
    · refine opsSeg_append a b codes.dropLast _ sa sb li1 lj1 _ _ hfront' ?_
      refine ⟨rfl, rfl, ?_, ⟨rfl, rfl⟩⟩
      refine opOK_mk a b .equal li1 (min li2 (li1 + n)) lj1 (min lj2 (lj1 + n))
        (by omega) (by omega) (by omega) (by omega) ⟨by omega, by omega, ?_⟩
      have hsub := sliceLines_eq_sub a b li1 li2 lj1 lj2 hslice hwid
        0 (min (li2 - li1) n) (by omega)
      have e1 : li1 + min (li2 - li1) n = min li2 (li1 + n) := by omega
      have e3 : lj1 + min (li2 - li1) n = min lj2 (lj1 + n) := by omega
      rw [e1, e3] at hsub
      simpa using hsub
  · rw [ht0, if_neg htag]
    exact ⟨a.length, b.length, by rw [List.drop_length a, List.drop_length b], Nat.le_refl _,
      Nat.le_refl _, hseg⟩

theorem get_grouped_opcodes_spec (a b : List Line) :
    GroupsSpec a b 0 0 (get_grouped_opcodes a b 3) := by
  have hseg := get_opcodes_seg a b
  cases hcodes : get_opcodes a b with
  | nil =>
      rw [hcodes] at hseg
      have hla : (0 : Nat) = a.length := hseg.1
      have hlb : (0 : Nat) = b.length := hseg.2
      have ha : a = [] := List.length_eq_zero.mp hla.symm
      have hb : b = [] := List.length_eq_zero.mp hlb.symm
      subst ha; subst hb
      have hg : get_grouped_opcodes [] [] 3 = [] := by decide
      rw [hg]
      exact ⟨rfl, Nat.le_refl 0, Nat.le_refl 0⟩
  | cons c0 crest =>
      rw [hcodes] at hseg
      have hgg : get_grouped_opcodes a b 3 =
          groupLoop 3 [] (trimLastOpcode 3 (trimFirstOpcode 3 (c0 :: crest))) := by
        unfold get_grouped_opcodes
        rw [hcodes]
        rfl
      rw [hgg]
      obtain ⟨sa, sb, hsw, hpre, hsa, hsb, hne1, hseg1⟩ :=
        trimFirst_spec a b 3 (by omega) c0 crest a.length b.length hseg
      obtain ⟨ea, eb, hdrop, hea, heb, hseg2⟩ :=
        trimLast_spec a b 3 (by omega) _ sa sb hne1 hseg1
      have hmain := groupLoop_spec a b 3 (by omega) _ [] sa sb ea eb sa sb hseg2
        ⟨rfl, rfl⟩ hdrop hea heb
      exact groupsSpec_prepend_gap a b _ 0 0 sa sb hmain (Nat.zero_le sa) (Nat.zero_le sb)
        (by omega) hpre hsa hsb

/-! ### Every rendered diff line is a newline-terminated line -/

theorem NLLine_concat_nl (body : List Char) (h : ∀ c ∈ body, c ≠ '\n') :
    NLLine (body ++ ['\n']) :=
  ⟨by simp, List.getLast?_concat _, by rw [List.dropLast_concat]; exact h⟩

theorem NLLine_decomp (l : Line) (h : NLLine l) : l = l.dropLast ++ ['\n'] := by
  rcases h with ⟨hne, hlast, _⟩
  have h1 : l.dropLast ++ [l.getLast hne] = l := List.dropLast_concat_getLast hne
  have h2 : l.getLast hne = '\n' := by
    have h3 := List.getLast?_eq_getLast l hne
    rw [h3] at hlast
    exact Option.some.inj hlast
  rw [h2] at h1
  exact h1.symm

theorem NLLine_cons (c : Char) (l : Line) (hc : c ≠ '\n') (h : NLLine l) :
    NLLine (c :: l) := by
  rw [NLLine_decomp l h, ← List.cons_append]
  refine NLLine_concat_nl _ ?_
  intro x hx
  rcases List.mem_cons.mp hx with rfl | hx
  · exact hc
  · exact h.2.2 x hx

theorem mem_sliceLines (l : List Line) (i1 i2 : Nat) (x : Line)
    (h : x ∈ sliceLines l i1 i2) : x ∈ l :=
  List.mem_of_mem_drop (List.mem_of_mem_take h)

theorem versionLabel_no_nl (path : String) (v : Nat) (hpath : ∀ c ∈ path.data, c ≠ '\n') :
    ∀ c ∈ versionLabel path v, c ≠ '\n' := by
  intro c hc
  unfold versionLabel at hc
  rcases List.mem_append.mp hc with hc | hc
  · rcases List.mem_append.mp hc with hc | hc
    · rcases List.mem_append.mp hc with hc | hc
      · exact hpath c hc
      · intro hh; subst hh; revert hc; decide
    · exact (isDigit_ne_special c ((natToDec_digits v).2 c hc)).1
  · intro hh; subst hh; revert hc; decide

theorem NLLine_fileHeader (c0 : Char) (f : Line) (hc : c0 ≠ '\n')
    (hf : ∀ c ∈ f, c ≠ '\n') :
    NLLine ((c0 :: c0 :: c0 :: ' ' :: f) ++ ['\n']) := by
  refine NLLine_concat_nl _ ?_
  intro x hx
  rcases List.mem_cons.mp hx with rfl | hx
  · exact hc
  rcases List.mem_cons.mp hx with rfl | hx
  · exact hc
  rcases List.mem_cons.mp hx with rfl | hx
  · exact hc
  rcases List.mem_cons.mp hx with rfl | hx
  · decide
  · exact hf x hx

theorem hunkHeader_some (g : List Opcode) (first last : Opcode)
    (h1 : g.head? = some first) (h2 : g.getLast? = some last) :
    hunkHeader g = ['@', '@', ' ', '-'] ++ formatRangeUnified first.i1 last.i2 ++
      [' ', '+'] ++ formatRangeUnified first.j1 last.j2 ++ [' ', '@', '@', '\n'] := by
  unfold hunkHeader
  rw [h1, h2]

theorem NLLine_hunkHeader (g : List Opcode) (hg : g ≠ []) : NLLine (hunkHeader g) := by
  obtain ⟨first, grest, rfl⟩ := List.exists_cons_of_ne_nil hg
  have h1 : (first :: grest).head? = some first := rfl
  have h2 := List.getLast?_eq_getLast (first :: grest) hg
  rw [hunkHeader_some _ first ((first :: grest).getLast hg) h1 h2]
  have hshape : ['@', '@', ' ', '-'] ++
      formatRangeUnified first.i1 ((first :: grest).getLast hg).i2 ++
      [' ', '+'] ++ formatRangeUnified first.j1 ((first :: grest).getLast hg).j2 ++
      [' ', '@', '@', '\n'] =
      (['@', '@', ' ', '-'] ++ formatRangeUnified first.i1 ((first :: grest).getLast hg).i2 ++
        [' ', '+'] ++ formatRangeUnified first.j1 ((first :: grest).getLast hg).j2 ++
        [' ', '@', '@']) ++ ['\n'] := by
    simp
  rw [hshape]
  refine NLLine_concat_nl _ ?_
  intro x hx
  rcases List.mem_append.mp hx with hx | hx
  · rcases List.mem_append.mp hx with hx | hx
    · rcases List.mem_append.mp hx with hx | hx
      · rcases List.mem_append.mp hx with hx | hx
        · intro hh; subst hh; exact absurd hx (by decide)
        · exact formatRange_no_nl _ _ x hx
      · intro hh; subst hh; exact absurd hx (by decide)
    · exact formatRange_no_nl _ _ x hx
  · intro hh; subst hh; exact absurd hx (by decide)

theorem NLLine_opcodeLines (a b : List Line) (c : Opcode)
    (hA : ∀ l ∈ a, NLLine l) (hB : ∀ l ∈ b, NLLine l) :
    ∀ l ∈ opcodeLines a b c, NLLine l := by
  intro l hl
  unfold opcodeLines at hl
  have hspace : ∀ x ∈ (sliceLines a c.i1 c.i2).map (fun l => ' ' :: l), NLLine x := by
    intro x hx
    obtain ⟨y, hy, rfl⟩ := List.mem_map.mp hx
    exact NLLine_cons ' ' y (by decide) (hA y (mem_sliceLines a _ _ y hy))
  have hminus : ∀ x ∈ (sliceLines a c.i1 c.i2).map (fun l => '-' :: l), NLLine x := by
    intro x hx
    obtain ⟨y, hy, rfl⟩ := List.mem_map.mp hx
    exact NLLine_cons '-' y (by decide) (hA y (mem_sliceLines a _ _ y hy))
  have hplus : ∀ x ∈ (sliceLines b c.j1 c.j2).map (fun l => '+' :: l), NLLine x := by
    intro x hx
    obtain ⟨y, hy, rfl⟩ := List.mem_map.mp hx
    exact NLLine_cons '+' y (by decide) (hB y (mem_sliceLines b _ _ y hy))
  cases htag : c.tag with
  | equal => rw [htag] at hl; exact hspace l hl
  | replace =>
      rw [htag] at hl
      rcases List.mem_append.mp hl with hl | hl
      · exact hminus l hl
      · exact hplus l hl
  | delete => rw [htag] at hl; exact hminus l hl
  | insert => rw [htag] at hl; exact hplus l hl

theorem unified_diff_NL (a b : List Line) (f t : Line)
    (hA : ∀ l ∈ a, NLLine l) (hB : ∀ l ∈ b, NLLine l)
    (hf : ∀ c ∈ f, c ≠ '\n') (ht : ∀ c ∈ t, c ≠ '\n')
    (hgs : ∀ g ∈ get_grouped_opcodes a b 3, g ≠ []) :
    ∀ l ∈ unified_diff a b f t, NLLine l := by
  intro l hl
  unfold unified_diff at hl
  obtain ⟨p, hp, hlp⟩ := List.mem_flatMap.mp hl
  rcases List.mem_append.mp hlp with hh | hh
  · by_cases h0 : p.1 = 0
    · rw [if_pos h0] at hh
      rcases List.mem_cons.mp hh with rfl | hh
      · exact NLLine_fileHeader '-' f (by decide) hf
      · rcases List.mem_cons.mp hh with rfl | hh
        · exact NLLine_fileHeader '+' t (by decide) ht
        · simp at hh
    · rw [if_neg h0] at hh
      simp at hh
  · have hmm := List.mem_enumFrom hp
    have hmem : p.2 ∈ get_grouped_opcodes a b 3 := by
      rw [hmm.2.2]
      exact List.getElem_mem _
    unfold hunkLines at hh
    rcases List.mem_cons.mp hh with rfl | hh
    · exact NLLine_hunkHeader p.2 (hgs p.2 hmem)
    · obtain ⟨c, _, hc⟩ := List.mem_flatMap.mp hh
      exact NLLine_opcodeLines a b c hA hB l hc

theorem groupsSpec_groups_ne_nil (a b : List Line) :
    ∀ (gs : List (List Opcode)) (i j : Nat), GroupsSpec a b i j gs →
      ∀ g ∈ gs, g ≠ [] := by
  intro gs
  induction gs with
  | nil =>
      intro i j _ g hg
      simp at hg
  | cons g0 rest ih =>
      intro i j h g hg
      obtain ⟨_, _, ea2, eb2, _, _, _, _, _, _, hne, _, hrest⟩ := h
      rcases List.mem_cons.mp hg with rfl | hg
      · exact hne
      · exact ih ea2 eb2 hrest g hg

/-! ### Consuming a hunk body by record counts -/

theorem consumeBody_zero (fuel : Nat) (lines : List Line) :
    consumeBody fuel 0 0 lines = some ([], lines) := by
  cases fuel <;> cases lines <;> rfl

theorem consumeBody_space_step (f s d : Nat) (c : Line) (ls : List Line) :
    consumeBody (f + 1) (s + 1) (d + 1) ((' ' :: c) :: ls) =
      (consumeBody f s d ls).map (fun r => ((' ' :: c) :: r.1, r.2)) := by
  show (if (s + 1 ≠ 0 ∧ d + 1 ≠ 0) then
      (consumeBody f (s + 1 - 1) (d + 1 - 1) ls).map (fun r => ((' ' :: c) :: r.1, r.2))
    else none) = _
  rw [if_pos ⟨Nat.succ_ne_zero s, Nat.succ_ne_zero d⟩]
  rfl

theorem consumeBody_minus_step (f s d : Nat) (c : Line) (ls : List Line) :
    consumeBody (f + 1) (s + 1) d (('-' :: c) :: ls) =
      (consumeBody f s d ls).map (fun r => (('-' :: c) :: r.1, r.2)) := by
  show (if s + 1 ≠ 0 then
      (consumeBody f (s + 1 - 1) d ls).map (fun r => (('-' :: c) :: r.1, r.2))
    else none) = _
  rw [if_pos (Nat.succ_ne_zero s)]
  rfl

theorem consumeBody_plus_step (f s d : Nat) (c : Line) (ls : List Line) :
    consumeBody (f + 1) s (d + 1) (('+' :: c) :: ls) =
      (consumeBody f s d ls).map (fun r => (('+' :: c) :: r.1, r.2)) := by
  cases s with
  | zero =>
      show (if d + 1 ≠ 0 then
          (consumeBody f 0 (d + 1 - 1) ls).map (fun r => (('+' :: c) :: r.1, r.2))
        else none) = _
      rw [if_pos (Nat.succ_ne_zero d)]
      rfl
  | succ s' =>
      show (if d + 1 ≠ 0 then
          (consumeBody f (s' + 1) (d + 1 - 1) ls).map (fun r => (('+' :: c) :: r.1, r.2))
        else none) = _
      rw [if_pos (Nat.succ_ne_zero d)]
      rfl

theorem bodyRun_append : ∀ (L1 L2 : List Line) (s1 d1 s2 d2 : Nat),
    BodyRun L1 s1 d1 → BodyRun L2 s2 d2 → BodyRun (L1 ++ L2) (s1 + s2) (d1 + d2) := by
  intro L1
  induction L1 with
  | nil =>
      intro L2 s1 d1 s2 d2 h1 h2
      obtain ⟨rfl, rfl⟩ := h1
      simpa using h2
  | cons l ls ih =>
      intro L2 s1 d1 s2 d2 h1 h2
      rcases h1 with ⟨c, s3, d3, rfl, rfl, rfl, hrun⟩ | ⟨c, s3, rfl, rfl, hrun⟩ |
        ⟨c, d3, rfl, rfl, hrun⟩
      · exact Or.inl ⟨c, s3 + s2, d3 + d2, rfl, by omega, by omega, ih L2 s3 d3 s2 d2 hrun h2⟩
      · exact Or.inr (Or.inl ⟨c, s3 + s2, rfl, by omega, ih L2 s3 d1 s2 d2 hrun h2⟩)
      · exact Or.inr (Or.inr ⟨c, d3 + d2, rfl, by omega, ih L2 s1 d3 s2 d2 hrun h2⟩)

theorem bodyRun_map_space (sl : List Line) :
    BodyRun (sl.map (fun l => ' ' :: l)) sl.length sl.length := by
  induction sl with
  | nil => exact ⟨rfl, rfl⟩
  | cons x sl' ih => exact Or.inl ⟨x, sl'.length, sl'.length, rfl, rfl, rfl, ih⟩

theorem bodyRun_map_minus (sl : List Line) :
    BodyRun (sl.map (fun l => '-' :: l)) sl.length 0 := by
  induction sl with
  | nil => exact ⟨rfl, rfl⟩
  | cons x sl' ih => exact Or.inr (Or.inl ⟨x, sl'.length, rfl, rfl, ih⟩)

theorem bodyRun_map_plus (sl : List Line) :
    BodyRun (sl.map (fun l => '+' :: l)) 0 sl.length := by
  induction sl with
  | nil => exact ⟨rfl, rfl⟩
  | cons x sl' ih => exact Or.inr (Or.inr ⟨x, sl'.length, rfl, rfl, ih⟩)

theorem sliceLines_length (l : List Line) (i1 i2 : Nat) (h1 : i1 ≤ i2) (h2 : i2 ≤ l.length) :
    (sliceLines l i1 i2).length = i2 - i1 := by
  simp only [sliceLines, List.length_take, List.length_drop]
  omega

theorem bodyRun_opcodeLines (a b : List Line) (c : Opcode) (hok : OpOK a b c) :
    BodyRun (opcodeLines a b c) (c.i2 - c.i1) (c.j2 - c.j1) := by
  have hb1 : c.i1 ≤ c.i2 := hok.1
  have hb2 : c.j1 ≤ c.j2 := hok.2.1
  have hb3 : c.i2 ≤ a.length := hok.2.2.1
  have hb4 : c.j2 ≤ b.length := hok.2.2.2.1
  have hla := sliceLines_length a c.i1 c.i2 hb1 hb3
  have hlb := sliceLines_length b c.j1 c.j2 hb2 hb4
  have hok5 := hok.2.2.2.2
  unfold opcodeLines
  cases htag : c.tag with
  | equal =>
      rw [htag] at hok5
      have heq : c.j2 - c.j1 = c.i2 - c.i1 := hok5.1.symm
      rw [heq, ← hla]
      exact bodyRun_map_space _
  | replace =>
      have h := bodyRun_append _ _ _ _ _ _ (bodyRun_map_minus (sliceLines a c.i1 c.i2))
        (bodyRun_map_plus (sliceLines b c.j1 c.j2))
      rw [hla, hlb] at h
      simpa using h
  | delete =>
      rw [htag] at hok5
      have heq : c.j2 - c.j1 = 0 := by omega
      rw [heq, ← hla]
      exact bodyRun_map_minus _
  | insert =>
      rw [htag] at hok5
      have heq : c.i2 - c.i1 = 0 := by omega
      rw [heq, ← hlb]
      exact bodyRun_map_plus _

theorem bodyRun_seg (a b : List Line) : ∀ (g : List Opcode) (sa sb ea eb : Nat),
    OpsSeg a b sa sb ea eb g →
    BodyRun (g.flatMap (opcodeLines a b)) (ea - sa) (eb - sb) := by
  intro g
  induction g with
  | nil =>
      intro sa sb ea eb h
      have h1 : sa = ea := h.1
      have h2 : sb = eb := h.2
      exact ⟨by omega, by omega⟩
  | cons c grest ih =>
      intro sa sb ea eb h
      obtain ⟨hc1, hc2, hok, hrest⟩ := h
      have hmono := opsSeg_mono a b grest c.i2 c.j2 ea eb hrest
      have hb1 : c.i1 ≤ c.i2 := hok.1
      have hb2 : c.j1 ≤ c.j2 := hok.2.1
      rw [List.flatMap_cons]
      have h := bodyRun_append _ _ _ _ _ _ (bodyRun_opcodeLines a b c hok)
        (ih c.i2 c.j2 ea eb hrest)
      have e1 : c.i2 - c.i1 + (ea - c.i2) = ea - sa := by omega
      have e2 : c.j2 - c.j1 + (eb - c.j2) = eb - sb := by omega
      rw [e1, e2] at h
      exact h

theorem consumeBody_run : ∀ (L : List Line) (s d : Nat), BodyRun L s d →
    ∀ (fuel : Nat), s + d ≤ fuel → ∀ (rest : List Line),
      consumeBody fuel s d (L ++ rest) = some (L, rest) := by
  intro L
  induction L with
  | nil =>
      intro s d h fuel _ rest
      obtain ⟨rfl, rfl⟩ := h
      exact consumeBody_zero fuel rest
  | cons l ls ih =>
      intro s d h fuel hfuel rest
      rcases h with ⟨c, s2, d2, rfl, rfl, rfl, hrun⟩ | ⟨c, s2, rfl, rfl, hrun⟩ |
        ⟨c, d2, rfl, rfl, hrun⟩
      · cases fuel with
        | zero => omega
        | succ f =>
            rw [List.cons_append, consumeBody_space_step,
              ih s2 d2 hrun f (by omega) rest]
            rfl
      · cases fuel with
        | zero => omega
        | succ f =>
            rw [List.cons_append, consumeBody_minus_step,
              ih s2 d hrun f (by omega) rest]
            rfl
      · cases fuel with
        | zero => omega
        | succ f =>
            rw [List.cons_append, consumeBody_plus_step,
              ih s d2 hrun f (by omega) rest]
            rfl

/-! ### Replaying a hunk body against the source -/

theorem applyBody_space_run : ∀ (sl : List Line) (body : List Line) (srest : List Line),
    applyBody (sl.map (fun l => ' ' :: l) ++ body) (sl ++ srest) =
      (applyBody body srest).map (fun r => (sl ++ r.1, r.2)) := by
  intro sl
  induction sl with
  | nil =>
      intro body srest
      simp only [List.map_nil, List.nil_append]
      cases applyBody body srest <;> rfl
  | cons x sl' ih =>
      intro body srest
      simp only [List.map_cons, List.cons_append]
      show (if (x == x) = true then
          (applyBody (sl'.map (fun l => ' ' :: l) ++ body) (sl' ++ srest)).map
            (fun r => (x :: r.1, r.2))
        else none) = _
      rw [if_pos (by simp), ih body srest]
      cases applyBody body srest <;> rfl

theorem applyBody_minus_run : ∀ (sl : List Line) (body : List Line) (srest : List Line),
    applyBody (sl.map (fun l => '-' :: l) ++ body) (sl ++ srest) = applyBody body srest := by
  intro sl
  induction sl with
  | nil =>
      intro body srest
      rfl
  | cons x sl' ih =>
      intro body srest
      simp only [List.map_cons, List.cons_append]
      show (if (x == x) = true then
          applyBody (sl'.map (fun l => '-' :: l) ++ body) (sl' ++ srest)
        else none) = _
      rw [if_pos (by simp), ih body srest]

theorem applyBody_plus_run : ∀ (sl : List Line) (body : List Line) (src : List Line),
    applyBody (sl.map (fun l => '+' :: l) ++ body) src =
      (applyBody body src).map (fun r => (sl ++ r.1, r.2)) := by
  intro sl
  induction sl with
  | nil =>
      intro body src
      simp only [List.map_nil, List.nil_append]
      cases applyBody body src <;> rfl
  | cons x sl' ih =>
      intro body src
      simp only [List.map_cons, List.cons_append]
      show (applyBody (sl'.map (fun l => '+' :: l) ++ body) src).map
          (fun r => (x :: r.1, r.2)) = _
      rw [ih body src]
      cases applyBody body src <;> rfl

theorem applyBody_seg (a b : List Line) : ∀ (g : List Opcode) (sa sb ea eb : Nat),
    OpsSeg a b sa sb ea eb g →
    applyBody (g.flatMap (opcodeLines a b)) (a.drop sa) =
      some (sliceLines b sb eb, a.drop ea) := by
  intro g
  induction g with
  | nil =>
      intro sa sb ea eb h
      have h1 : sa = ea := h.1
      have h2 : sb = eb := h.2
      subst h1; subst h2
      show some ([], a.drop sa) = some (sliceLines b sb sb, a.drop sa)
      simp [sliceLines]
  | cons c grest ih =>
      intro sa sb ea eb h
      obtain ⟨hc1, hc2, hok, hrest⟩ := h
      have hmono := opsSeg_mono a b grest c.i2 c.j2 ea eb hrest
      have hb1 : c.i1 ≤ c.i2 := hok.1
      have hb2 : c.j1 ≤ c.j2 := hok.2.1
      have hb3 : c.i2 ≤ a.length := hok.2.2.1
      have hb4 : c.j2 ≤ b.length := hok.2.2.2.1
      have hok5 := hok.2.2.2.2
      have hdropA : a.drop c.i1 = sliceLines a c.i1 c.i2 ++ a.drop c.i2 :=
        drop_eq_slice_append a c.i1 c.i2 hb1
      have hrec := ih c.i2 c.j2 ea eb hrest
      have hslB : sliceLines b c.j1 c.j2 ++ sliceLines b c.j2 eb = sliceLines b c.j1 eb :=
        (sliceLines_append b c.j1 c.j2 eb hb2 hmono.2).symm
      rw [List.flatMap_cons, ← hc1, ← hc2]
      cases htag : c.tag with
      | equal =>
          rw [htag] at hok5
          have hop : opcodeLines a b c = (sliceLines a c.i1 c.i2).map (fun l => ' ' :: l) := by
            unfold opcodeLines; rw [htag]
          rw [hop, hdropA, applyBody_space_run, hrec, hok5.2.2]
          show some (sliceLines b c.j1 c.j2 ++ sliceLines b c.j2 eb, a.drop ea) = _
          rw [hslB]
      | replace =>
          have hop : opcodeLines a b c = (sliceLines a c.i1 c.i2).map (fun l => '-' :: l) ++
              (sliceLines b c.j1 c.j2).map (fun l => '+' :: l) := by
            unfold opcodeLines; rw [htag]
          rw [hop, List.append_assoc, hdropA, applyBody_minus_run, applyBody_plus_run, hrec]
          show some (sliceLines b c.j1 c.j2 ++ sliceLines b c.j2 eb, a.drop ea) = _
          rw [hslB]
      | delete =>
          rw [htag] at hok5
          have hop : opcodeLines a b c = (sliceLines a c.i1 c.i2).map (fun l => '-' :: l) := by
            unfold opcodeLines; rw [htag]
          rw [hop, hdropA, applyBody_minus_run, hrec, hok5.2]
      | insert =>
          rw [htag] at hok5
          have hii : c.i1 = c.i2 := hok5.1
          have hop : opcodeLines a b c = (sliceLines b c.j1 c.j2).map (fun l => '+' :: l) := by
            unfold opcodeLines; rw [htag]
          rw [hop, hii, applyBody_plus_run, hrec]
          show some (sliceLines b c.j1 c.j2 ++ sliceLines b c.j2 eb, a.drop ea) = _
          rw [hslB]

/-! ### Parsing and replaying the hunk sequence -/

theorem parseHunksFuel_nil (fuel : Nat) : parseHunksFuel fuel [] = some [] := by
  cases fuel <;> rfl

theorem parseHunksFuel_cons (f : Nat) (l : Line) (rest : List Line) :
    parseHunksFuel (f + 1) (l :: rest) =
      Option.bind (parseHunkHeader l) (fun h =>
        Option.bind (consumeBody (h.2.1 + h.2.2.2) h.2.1 h.2.2.2 rest) (fun br =>
          Option.bind (parseHunksFuel f br.2) (fun hs =>
            some (⟨h.1, h.2.1, h.2.2.1, h.2.2.2, br.1⟩ :: hs)))) := rfl

theorem applyHunks_nil (src : List Line) (pos : Nat) :
    applyHunks src pos [] = some (src.drop pos) := rfl

theorem applyHunks_cons_eq (src : List Line) (pos : Nat) (h : Hunk) (hs : List Hunk) :
    applyHunks src pos (h :: hs) =
      (if pos ≤ (if h.srcLen = 0 then h.srcStart else h.srcStart - 1) ∧
          (if h.srcLen = 0 then h.srcStart else h.srcStart - 1) ≤ src.length then
        match applyBody h.body
            (src.drop (if h.srcLen = 0 then h.srcStart else h.srcStart - 1)) with
        | some r =>
            (applyHunks src ((if h.srcLen = 0 then h.srcStart else h.srcStart - 1) +
              h.srcLen) hs).map
              (fun tailOut =>
                sliceLines src pos (if h.srcLen = 0 then h.srcStart else h.srcStart - 1) ++
                  r.1 ++ tailOut)
        | none => none
      else none) := rfl

theorem hunks_apply (a b : List Line) : ∀ (groups : List (List Opcode)) (i j fuel : Nat),
    GroupsSpec a b i j groups → groups.length ≤ fuel →
    ∃ hunks, parseHunksFuel fuel (groups.flatMap (hunkLines a b)) = some hunks ∧
      applyHunks a i hunks = some (b.drop j) := by
  intro groups
  induction groups with
  | nil =>
      intro i j fuel h _
      refine ⟨[], by rw [List.flatMap_nil]; exact parseHunksFuel_nil fuel, ?_⟩
      rw [applyHunks_nil, h.1]
  | cons g groups' ih =>
      intro i j fuel h hfuel
      obtain ⟨sa, sb, ea, eb, hisa, hjsb, hgapw, hsaA, hsbB, hgap, hgne, hseg, hrestG⟩ := h
      cases fuel with
      | zero => simp at hfuel
      | succ f =>
          obtain ⟨hunks', hparseIH, happlyIH⟩ := ih ea eb f hrestG (by simpa using hfuel)
          obtain ⟨c1, grest, rfl⟩ := List.exists_cons_of_ne_nil hgne
          have hgl : (c1 :: grest).getLast? = some ((c1 :: grest).getLast hgne) :=
            List.getLast?_eq_getLast _ hgne
          obtain ⟨hokL, hLi2, hLj2, _⟩ := opsSeg_last a b (c1 :: grest)
            ((c1 :: grest).getLast hgne) sa sb ea eb hseg hgl
          have hc11 : c1.i1 = sa := hseg.1
          have hc12 : c1.j1 = sb := hseg.2.1
          have hmono := opsSeg_mono a b (c1 :: grest) sa sb ea eb hseg
          have hheader : hunkHeader (c1 :: grest) =
              ['@', '@', ' ', '-'] ++ formatRangeUnified c1.i1 ((c1 :: grest).getLast hgne).i2 ++
                [' ', '+'] ++ formatRangeUnified c1.j1 ((c1 :: grest).getLast hgne).j2 ++
                [' ', '@', '@', '\n'] :=
            hunkHeader_some _ c1 _ rfl hgl
          have hparse1 : parseHunkHeader (hunkHeader (c1 :: grest)) =
              some (if ea - sa = 0 then sa else sa + 1, ea - sa,
                    if eb - sb = 0 then sb else sb + 1, eb - sb) := by
            rw [hheader, parseHunkHeader_format, hc11, hc12, hLi2, hLj2]
          have hflat : ((c1 :: grest) :: groups').flatMap (hunkLines a b) =
              hunkHeader (c1 :: grest) ::
                ((c1 :: grest).flatMap (opcodeLines a b) ++
                  groups'.flatMap (hunkLines a b)) := by
            rw [List.flatMap_cons]
            rfl
          have hconsume : consumeBody ((ea - sa) + (eb - sb)) (ea - sa) (eb - sb)
              ((c1 :: grest).flatMap (opcodeLines a b) ++ groups'.flatMap (hunkLines a b)) =
              some ((c1 :: grest).flatMap (opcodeLines a b),
                groups'.flatMap (hunkLines a b)) :=
            consumeBody_run _ _ _ (bodyRun_seg a b _ sa sb ea eb hseg) _ (Nat.le_refl _) _
          have happlyBody : applyBody ((c1 :: grest).flatMap (opcodeLines a b)) (a.drop sa) =
              some (sliceLines b sb eb, a.drop ea) :=
            applyBody_seg a b _ sa sb ea eb hseg
          refine ⟨⟨if ea - sa = 0 then sa else sa + 1, ea - sa,
            if eb - sb = 0 then sb else sb + 1, eb - sb,
            (c1 :: grest).flatMap (opcodeLines a b)⟩ :: hunks', ?_, ?_⟩
          · rw [hflat, parseHunksFuel_cons, hparse1, Option.some_bind]
            dsimp only
            rw [hconsume, Option.some_bind]
            dsimp only
            rw [hparseIH, Option.some_bind]
          · have hP : (if (⟨if ea - sa = 0 then sa else sa + 1, ea - sa,
                if eb - sb = 0 then sb else sb + 1, eb - sb,
                (c1 :: grest).flatMap (opcodeLines a b)⟩ : Hunk).srcLen = 0 then
                  (⟨if ea - sa = 0 then sa else sa + 1, ea - sa,
                    if eb - sb = 0 then sb else sb + 1, eb - sb,
                    (c1 :: grest).flatMap (opcodeLines a b)⟩ : Hunk).srcStart
                else
                  (⟨if ea - sa = 0 then sa else sa + 1, ea - sa,
                    if eb - sb = 0 then sb else sb + 1, eb - sb,
                    (c1 :: grest).flatMap (opcodeLines a b)⟩ : Hunk).srcStart - 1) = sa := by
              show (if ea - sa = 0 then (if ea - sa = 0 then sa else sa + 1)
                else (if ea - sa = 0 then sa else sa + 1) - 1) = sa
              by_cases hz : ea - sa = 0 <;> simp [hz]
            rw [applyHunks_cons_eq, hP]
            rw [if_pos ⟨hisa, hsaA⟩]
            rw [happlyBody]
            dsimp only
            have hea2 : sa + (⟨if ea - sa = 0 then sa else sa + 1, ea - sa,
                if eb - sb = 0 then sb else sb + 1, eb - sb,
                (c1 :: grest).flatMap (opcodeLines a b)⟩ : Hunk).srcLen = ea := by
              show sa + (ea - sa) = ea
              omega
            rw [hea2, happlyIH, Option.map_some']
            rw [hgap, drop_eq_slice_append b j sb hjsb,
              drop_eq_slice_append b sb eb hmono.2]
            simp [List.append_assoc]

/-! ### The rendered diff, assembled and replayed -/

theorem enumFrom_hunk_flatMap (a b : List Line) (f t : Line) :
    ∀ (gs : List (List Opcode)) (k : Nat), k ≠ 0 →
      (List.enumFrom k gs).flatMap (fun p =>
        (if p.1 = 0 then
          [('-' :: '-' :: '-' :: ' ' :: f) ++ ['\n'],
           ('+' :: '+' :: '+' :: ' ' :: t) ++ ['\n']]
         else []) ++ hunkLines a b p.2) = gs.flatMap (hunkLines a b) := by
  intro gs
  induction gs with
  | nil => intro k _; rfl
  | cons g rest ih =>
      intro k hk
      show ((if k = 0 then _ else []) ++ hunkLines a b g) ++
          (List.enumFrom (k + 1) rest).flatMap _ = _
      rw [if_neg hk, ih (k + 1) (Nat.succ_ne_zero k), List.flatMap_cons, List.nil_append]

theorem unified_diff_groups (a b : List Line) (f t : Line) (g0 : List Opcode)
    (grest : List (List Opcode)) (h : get_grouped_opcodes a b 3 = g0 :: grest) :
    unified_diff a b f t =
      (('-' :: '-' :: '-' :: ' ' :: f) ++ ['\n']) ::
      (('+' :: '+' :: '+' :: ' ' :: t) ++ ['\n']) ::
      (g0 :: grest).flatMap (hunkLines a b) := by
  unfold unified_diff
  rw [h]
  show ((if (0 : Nat) = 0 then _ else []) ++ hunkLines a b g0) ++
      (List.enumFrom 1 grest).flatMap _ = _
  rw [if_pos rfl, enumFrom_hunk_flatMap a b f t grest 1 (by omega), List.flatMap_cons]
  simp

theorem length_le_flatMap_hunkLines (a b : List Line) :
    ∀ gs : List (List Opcode), gs.length ≤ (gs.flatMap (hunkLines a b)).length := by
  intro gs
  induction gs with
  | nil => simp
  | cons g rest ih =>
      rw [List.flatMap_cons, List.length_append]
      have h1 : 1 ≤ (hunkLines a b g).length := by
        unfold hunkLines
        simp
      simp only [List.length_cons]
      omega

theorem applyUnified_mk_nil (src : String) : applyUnified ⟨[]⟩ src = some src := by
  show some ⟨((splitNL src.data).drop 0).flatten⟩ = some src
  rw [List.drop_zero, splitNL_flatten]

theorem applyUnified_unifiedDiffText (prev next path : String) (v : Nat)
    (hp : Tame prev) (hnw : Tame next) (hpath : ∀ c ∈ path.data, c ≠ '\n') :
    applyUnified (unifiedDiffText prev next path v) prev = some next := by
  have hA : splitlinesKeepends prev = splitNL prev.data := splitlinesKeepends_eq_splitNL prev hp
  have hB : splitlinesKeepends next = splitNL next.data := splitlinesKeepends_eq_splitNL next hnw
  have hAnl : ∀ l ∈ splitNL prev.data, NLLine l := splitNL_lines_NL prev.data hp.2
  have hBnl : ∀ l ∈ splitNL next.data, NLLine l := splitNL_lines_NL next.data hnw.2
  have hfnl : ∀ c ∈ versionLabel path v, c ≠ '\n' := versionLabel_no_nl path v hpath
  have htnl : ∀ c ∈ versionLabel path (v + 1), c ≠ '\n' := versionLabel_no_nl path (v + 1) hpath
  have hG := get_grouped_opcodes_spec (splitNL prev.data) (splitNL next.data)
  have hdata : (unifiedDiffText prev next path v).data =
      (unified_diff (splitNL prev.data) (splitNL next.data)
        (versionLabel path v) (versionLabel path (v + 1))).flatten := by
    unfold unifiedDiffText
    rw [hA, hB]
  cases hGe : get_grouped_opcodes (splitNL prev.data) (splitNL next.data) 3 with
  | nil =>
      rw [hGe] at hG
      have hdiffe : unified_diff (splitNL prev.data) (splitNL next.data)
          (versionLabel path v) (versionLabel path (v + 1)) = [] := by
        unfold unified_diff
        rw [hGe]
        rfl
      have hde : (unifiedDiffText prev next path v).data = [] := by
        rw [hdata, hdiffe]
        rfl
      have hmk : unifiedDiffText prev next path v = ⟨[]⟩ := by
        rw [← hde]
      rw [hmk, applyUnified_mk_nil]
      have hsame : prev.data = next.data := by
        have h1 : (splitNL prev.data).drop 0 = (splitNL next.data).drop 0 := hG.1
        rw [List.drop_zero, List.drop_zero] at h1
        have h2 := congrArg List.flatten h1
        rw [splitNL_flatten, splitNL_flatten] at h2
        exact h2
      have heq : prev = next := congrArg String.mk hsame
      rw [heq]
  | cons g0 grest =>
      rw [hGe] at hG
      have hgne := groupsSpec_groups_ne_nil (splitNL prev.data) (splitNL next.data)
        (g0 :: grest) 0 0 hG
      have hdiff := unified_diff_groups (splitNL prev.data) (splitNL next.data)
        (versionLabel path v) (versionLabel path (v + 1)) g0 grest hGe
      have hNL : ∀ l ∈ unified_diff (splitNL prev.data) (splitNL next.data)
          (versionLabel path v) (versionLabel path (v + 1)), NLLine l := by
        refine unified_diff_NL _ _ _ _ hAnl hBnl hfnl htnl ?_
        rw [hGe]
        exact hgne
      have hsplit : splitNL (unifiedDiffText prev next path v).data =
          (('-' :: '-' :: '-' :: ' ' :: versionLabel path v) ++ ['\n']) ::
          (('+' :: '+' :: '+' :: ' ' :: versionLabel path (v + 1)) ++ ['\n']) ::
          (g0 :: grest).flatMap (hunkLines (splitNL prev.data) (splitNL next.data)) := by
        rw [hdata, splitNL_flatten_lines _ hNL, hdiff]
      obtain ⟨hunks, hparse, happly⟩ := hunks_apply (splitNL prev.data) (splitNL next.data)
        (g0 :: grest) 0 0
        ((g0 :: grest).flatMap (hunkLines (splitNL prev.data) (splitNL next.data))).length
        hG (length_le_flatMap_hunkLines _ _ _)
      have hpre : (("--- ".data).isPrefixOf
            (('-' :: '-' :: '-' :: ' ' :: versionLabel path v) ++ ['\n']) &&
          ("+++ ".data).isPrefixOf
            (('+' :: '+' :: '+' :: ' ' :: versionLabel path (v + 1)) ++ ['\n'])) = true := by
        have h1 : ("--- ".data) = ['-', '-', '-', ' '] := by decide
        have h2 : ("+++ ".data) = ['+', '+', '+', ' '] := by decide
        rw [h1, h2]
        simp [List.isPrefixOf]
      unfold applyUnified
      rw [hsplit]
      dsimp only
      rw [if_pos hpre]
      rw [hparse]
      simp only [Option.bind_eq_bind, Option.pure_def, Option.some_bind]
      rw [happly]
      simp only [Option.some_bind]
      rw [List.drop_zero, splitNL_flatten]

/-! ### C2: the diff round trip -/

/-- C2 counterexample: the claimed round trip fails for contents without a
trailing newline and for contents with bare-`'\r'` line boundaries.  For
the chain `"x=1"` then `"x=2"`, the stored `diff_from_previous` joins the
deletion and insertion records into the single line `-x=1+x=2` (difflib
emits no `\ No newline at end of file` marker), so unified-diff application
to version 1's content fails instead of reproducing `"x=2"`; likewise for
`"a\rx\n"` then `"b\rx\n"`, whose `'\r'`-terminated records merge into
`-a\r+b\r`. -/
theorem diff_roundtrip_counterexample :
    ((save_file_version (save_file_version DB.empty "p" "/a.py" "x=1" "w").2 "p" "/a.py"
        "x=2" "w").1.diff_from_previous =
      some "--- /a.py (v1)\n+++ /a.py (v2)\n@@ -1 +1 @@\n-x=1+x=2" ∧
     applyUnified "--- /a.py (v1)\n+++ /a.py (v2)\n@@ -1 +1 @@\n-x=1+x=2" "x=1" = none) ∧
    ((save_file_version (save_file_version DB.empty "p" "/b.py" "a\rx\n" "w").2 "p" "/b.py"
        "b\rx\n" "w").1.diff_from_previous =
      some "--- /b.py (v1)\n+++ /b.py (v2)\n@@ -1,2 +1,2 @@\n-a\r+b\r x\n" ∧
     applyUnified "--- /b.py (v1)\n+++ /b.py (v2)\n@@ -1,2 +1,2 @@\n-a\r+b\r x\n"
        "a\rx\n" = none) :=
  ⟨⟨by decide, by decide⟩, ⟨by decide, by decide⟩⟩

/-- C2 (amended): the round trip does hold on the tame fragment.  If the
previous version's content and the new content use `'\n'` as their only
line-break character and are empty or newline-terminated, and the file path
contains no newline, then the `diff_from_previous` stored by
`save_file_version` is present and applying it to the previous content
reproduces the new content exactly. -/
theorem diff_roundtrip_tame (db : DB) (pid path content tool : String) (prev : FileVersionRow)
    (hlv : 0 < latestVersion db pid path)
    (hprev : get_file_version db pid path (latestVersion db pid path) = some prev)
    (hp : Tame prev.content) (hc : Tame content)
    (hpath : ∀ c ∈ path.data, c ≠ '\n') :
    ∃ d, (save_file_version db pid path content tool).1.diff_from_previous = some d ∧
      applyUnified d prev.content = some content := by
  refine ⟨unifiedDiffText prev.content content path (latestVersion db pid path), ?_, ?_⟩
  · show (if 0 < latestVersion db pid path then
        match get_file_version db pid path (latestVersion db pid path) with
        | some prev2 =>
            some (unifiedDiffText prev2.content content path (latestVersion db pid path))
        | none => none
      else none) = _
    rw [if_pos hlv, hprev]
  · exact applyUnified_unifiedDiffText prev.content content path
      (latestVersion db pid path) hp hc hpath

theorem diff_roundtrip_tame_witness :
    ∃ d, (save_file_version (save_file_version DB.empty "p" "/a.py" "x=1\n" "w").2
        "p" "/a.py" "x=2\n" "w").1.diff_from_previous = some d ∧
      applyUnified d (save_file_version DB.empty "p" "/a.py" "x=1\n" "w").1.content =
        some "x=2\n" :=
  diff_roundtrip_tame _ "p" "/a.py" "x=2\n" "w" _ (by decide) (by decide)
    ⟨by decide, by decide⟩ ⟨by decide, by decide⟩ (by decide)

end ProdFC
